import Mathlib

/-!
# Verification of the zentures/bloom Bloom-filter library

Shallow embedding of the Go sources:
* `bloom.go` — the parameter math `K`, `M`, `S`;
* `standard/standard.go` — `StandardBloom`;
* `partitioned` (unnamed part_001) — `PartitionedBloom`;
* `scalable/scalable.go` — `ScalableBloom`.

Modelling conventions:
* Go `[]byte` is `List (Fin 256)`; a `hash.Hash` digest source is embedded as a
  pure function from input bytes to digest bytes (the source always calls
  `Reset; Write; Sum` atomically, so the statefulness of the hasher is not
  observable across calls).  The `h` field may be `none`, modelling a nil
  `hash.Hash`.
* Go float64 arithmetic in the parameter formulas and fill-ratio estimates is
  embedded over `ℝ` (exact real arithmetic); quantities that Go computes with
  rational float values (`p`, `e`, `r`, observed fill ratios) are carried as `ℚ`.
* `willf/bitset.BitSet` is embedded as the `Finset ℕ` of set bit indices:
  `Set` inserts (the Go `Set` extends the bitset as needed), `Test` is
  membership (false beyond the allocated length), `Count` is cardinality.
* Go runtime panics (nil hasher, short digest slice `s[4:8]`, out-of-range
  slice `bs[:k]` / `b[i]`, integer division by zero in `% m` / `% s`,
  indexing `bfs[-1]`) are modelled by `Option`, returning `none` exactly when
  the Go code would panic.
* Machine `uint` arithmetic is 64-bit: index arithmetic is reduced `% 2^64`.
* The scalable filter's `bfc` constructor field is `nil` by default, selecting
  `partitioned.New`; we embed that default, so a scalable chain is a list of
  `PartitionedBloom` generations.
-/

set_option maxHeartbeats 1000000

abbrev Byte := Fin 256

abbrev Bytes := List Byte

/-- A digest source: absorbs input bytes and produces digest bytes. -/
abbrev HashF := Bytes → Bytes

/-- One step of FNV-1 64-bit hashing (Go `hash/fnv` `sum64.Write`):
multiply by the FNV prime (mod 2^64), then xor in the byte. -/
def fnvStep (h : ℕ) (b : Byte) : ℕ := ((h * 1099511628211) % 2 ^ 64) ^^^ b.val

/-- FNV-1 64-bit hash of a byte string, starting from the FNV offset basis. -/
def fnv64 (d : Bytes) : ℕ := d.foldl fnvStep 14695981039346656037

/-- Big-endian byte expansion of a 64-bit word (Go `hash/fnv` `sum64.Sum`). -/
def toBytesBE (h : ℕ) : Bytes :=
  (List.range 8).map fun j => ⟨h / 256 ^ (7 - j) % 256, Nat.mod_lt _ (by norm_num)⟩

/-- The default digest source `fnv.New64()` as a pure bytes-to-digest function. -/
def fnvHash : HashF := fun d => toBytesBE (fnv64 d)

/-- `binary.BigEndian.Uint32(d[off:off+4])`; `none` models the Go slice panic
when the digest has fewer than `off+4` bytes. -/
def beUint32 (d : Bytes) (off : ℕ) : Option ℕ := do
  let b0 ← d[off]?
  let b1 ← d[off + 1]?
  let b2 ← d[off + 2]?
  let b3 ← d[off + 3]?
  pure (((b0.val * 256 + b1.val) * 256 + b2.val) * 256 + b3.val)

/-! ## Parameter math (`bloom.go`) -/

/-- `K(e) = ceil(log2(1/e))` — the number of hash values. -/
noncomputable def K (e : ℝ) : ℕ := ⌈Real.logb 2 (1 / e)⌉.toNat

/-- `M(n, p, e) = ceil(n / ((log(p)*log(1-p))/abs(log e)))` — total bits. -/
noncomputable def M (n : ℕ) (p e : ℝ) : ℕ :=
  ⌈(n : ℝ) / (Real.log p * Real.log (1 - p) / |Real.log e|)⌉.toNat

/-- `S(m, k) = ceil(m/k)` — the partition size. -/
noncomputable def S (m k : ℕ) : ℕ := ⌈(m : ℝ) / (k : ℝ)⌉.toNat

/-! ## The standard filter (`standard/standard.go`) -/

structure StandardBloom where
  hf : Option HashF
  m : ℕ
  k : ℕ
  s : ℕ
  p : ℚ
  e : ℚ
  n : ℕ
  b : Finset ℕ
  c : ℕ
  bs : List ℕ

/-- `standard.New(n)`: defaults `p = 0.5`, `e = 0.001`; derives `k`, `m`;
the `s` field of the Go struct is never assigned and stays `0`. -/
noncomputable def StandardBloom.New (n : ℕ) : StandardBloom :=
  { hf := some fnvHash
    n := n
    p := 1/2
    e := 1/1000
    k := K ((1:ℝ)/1000)
    m := M n ((1:ℝ)/2) ((1:ℝ)/1000)
    s := 0
    b := ∅
    c := 0
    bs := List.replicate (K ((1:ℝ)/1000)) 0 }

def StandardBloom.SetHasher (t : StandardBloom) (h : HashF) : StandardBloom :=
  { t with hf := some h }

def StandardBloom.SetErrorProbability (t : StandardBloom) (e : ℚ) : StandardBloom :=
  { t with e := e }

/-- `StandardBloom.Reset`: rederives `k` and `m` from the current `e`, `n`, `p`,
allocates a fresh bitset and scratch slice, and installs the default hasher if
none is set.  (The add counter `c` is not touched by the Go code.) -/
noncomputable def StandardBloom.Reset (t : StandardBloom) : StandardBloom :=
  { t with
    k := K (t.e : ℝ)
    m := M t.n (t.p : ℝ) (t.e : ℝ)
    b := ∅
    bs := List.replicate (K (t.e : ℝ)) 0
    hf := some (t.hf.getD fnvHash) }

noncomputable def StandardBloom.EstimatedFillRatio (t : StandardBloom) : ℝ :=
  1 - Real.exp (-(t.c : ℝ) * (t.k : ℝ) / (t.m : ℝ))

def StandardBloom.FillRatio (t : StandardBloom) : ℚ :=
  (t.b.card : ℚ) / (t.m : ℚ)

/-- `StandardBloom.bits`: hash the item once, split the digest into the two
32-bit halves `a = Uint32(d[4:8])` and `b = Uint32(d[0:4])`, and fill the
scratch slice with `(a + b*i) mod m` for `i < k` (64-bit `uint` arithmetic).
`none` models the panics: nil hasher, digest shorter than 8 bytes, scratch
slice shorter than `k`, and `% 0` when `k > 0` and `m = 0`. -/
def StandardBloom.bits (t : StandardBloom) (item : Bytes) : Option (List ℕ) := do
  let h ← t.hf
  let d := h item
  let a ← beUint32 d 4
  let b ← beUint32 d 0
  if t.k ≤ t.bs.length then
    if 0 < t.k ∧ t.m = 0 then none
    else some ((List.range t.k).map fun i => (a + b * i) % 2 ^ 64 % t.m)
  else none

/-- `StandardBloom.Add`: compute the bit positions, set each of them, bump `c`. -/
def StandardBloom.Add (t : StandardBloom) (item : Bytes) : Option StandardBloom :=
  (t.bits item).map fun ix =>
    { t with
      bs := ix ++ t.bs.drop t.k
      b := ix.foldl (fun s v => insert v s) t.b
      c := t.c + 1 }

/-- `StandardBloom.Check`: compute the bit positions and test them all; the
returned state records the mutated scratch slice. -/
def StandardBloom.Check (t : StandardBloom) (item : Bytes) :
    Option (Bool × StandardBloom) :=
  (t.bits item).map fun ix =>
    (ix.all fun v => decide (v ∈ t.b), { t with bs := ix ++ t.bs.drop t.k })

def StandardBloom.CheckB (t : StandardBloom) (item : Bytes) : Option Bool :=
  (t.Check item).map Prod.fst

def StandardBloom.Count (t : StandardBloom) : ℕ := t.c

/-! ## The partitioned filter (`partitioned`, unnamed source part_001) -/

structure PartitionedBloom where
  hf : Option HashF
  m : ℕ
  k : ℕ
  p : ℚ
  e : ℚ
  n : ℕ
  c : ℕ
  s : ℕ
  b : List (Finset ℕ)
  bs : List ℕ

/-- `makePartitions(k, s)`: `k` fresh bitsets (each of width `s`; the width is
immaterial in the `Finset` embedding of `bitset.BitSet`). -/
def makePartitions (k : ℕ) : List (Finset ℕ) := List.replicate k ∅

/-- `partitioned.New(n)`: defaults `p = 0.5`, `e = 0.001`; derives `k`, `m`, `s`. -/
noncomputable def PartitionedBloom.New (n : ℕ) : PartitionedBloom :=
  { hf := some fnvHash
    n := n
    p := 1/2
    e := 1/1000
    k := K ((1:ℝ)/1000)
    m := M n ((1:ℝ)/2) ((1:ℝ)/1000)
    s := S (M n ((1:ℝ)/2) ((1:ℝ)/1000)) (K ((1:ℝ)/1000))
    b := makePartitions (K ((1:ℝ)/1000))
    c := 0
    bs := List.replicate (K ((1:ℝ)/1000)) 0 }

def PartitionedBloom.SetHasher (t : PartitionedBloom) (h : HashF) : PartitionedBloom :=
  { t with hf := some h }

def PartitionedBloom.SetErrorProbability (t : PartitionedBloom) (e : ℚ) : PartitionedBloom :=
  { t with e := e }

/-- `PartitionedBloom.Reset`: rederives `k`, `m`, `s`, allocates fresh
partitions and scratch slice, installs the default hasher if none is set.
(The add counter `c` is not touched by the Go code.) -/
noncomputable def PartitionedBloom.Reset (t : PartitionedBloom) : PartitionedBloom :=
  { t with
    k := K (t.e : ℝ)
    m := M t.n (t.p : ℝ) (t.e : ℝ)
    s := S (M t.n (t.p : ℝ) (t.e : ℝ)) (K (t.e : ℝ))
    b := makePartitions (K (t.e : ℝ))
    bs := List.replicate (K (t.e : ℝ)) 0
    hf := some (t.hf.getD fnvHash) }

noncomputable def PartitionedBloom.EstimatedFillRatio (t : PartitionedBloom) : ℝ :=
  1 - Real.exp (-(t.c : ℝ) / (t.s : ℝ))

def PartitionedBloom.FillRatio (t : PartitionedBloom) : ℚ :=
  (((t.b.take t.k).map fun v => (v.card : ℚ) / (t.s : ℚ)).sum) / (t.k : ℚ)

/-- `PartitionedBloom.bits`: as for the standard filter but the derived values
are reduced `mod s` instead of `mod m`. -/
def PartitionedBloom.bits (t : PartitionedBloom) (item : Bytes) : Option (List ℕ) := do
  let h ← t.hf
  let d := h item
  let a ← beUint32 d 4
  let b ← beUint32 d 0
  if t.k ≤ t.bs.length then
    if 0 < t.k ∧ t.s = 0 then none
    else some ((List.range t.k).map fun i => (a + b * i) % 2 ^ 64 % t.s)
  else none

/-- `for i, v := range bs[:k] { b[i].Set(v) }`: partition `i` receives derived
value `i`; partitions beyond `k` are untouched. -/
def setParts (b : List (Finset ℕ)) (ix : List ℕ) : List (Finset ℕ) :=
  List.zipWith (fun s v => insert v s) b ix ++ b.drop ix.length

/-- `PartitionedBloom.Add`; `none` also models the `b[i]` panic when the
partition list is shorter than `k`. -/
def PartitionedBloom.Add (t : PartitionedBloom) (item : Bytes) : Option PartitionedBloom := do
  let ix ← t.bits item
  if t.k ≤ t.b.length then
    pure { t with
           bs := ix ++ t.bs.drop t.k
           b := setParts t.b ix
           c := t.c + 1 }
  else none

/-- `PartitionedBloom.Check`: derived value `i` is tested in partition `i`. -/
def PartitionedBloom.Check (t : PartitionedBloom) (item : Bytes) :
    Option (Bool × PartitionedBloom) := do
  let ix ← t.bits item
  if t.k ≤ t.b.length then
    pure ((t.b.zip ix).all fun sv => decide (sv.2 ∈ sv.1),
          { t with bs := ix ++ t.bs.drop t.k })
  else none

def PartitionedBloom.CheckB (t : PartitionedBloom) (item : Bytes) : Option Bool :=
  (t.Check item).map Prod.fst

def PartitionedBloom.Count (t : PartitionedBloom) : ℕ := t.c

/-! ## The scalable filter (`scalable/scalable.go`) -/

structure ScalableBloom where
  hf : Option HashF
  p : ℚ
  e : ℚ
  n : ℕ
  c : ℕ
  r : ℚ
  bfs : List PartitionedBloom

/-- The generation built by `addBloomFilter`: `partitioned.New(n)` (the `bfc`
field defaults to nil), then `SetHasher(this.h)`, then
`SetErrorProbability(e * r^len(bfs))`, then `Reset()`. -/
noncomputable def ScalableBloom.newGeneration (t : ScalableBloom) : PartitionedBloom :=
  (({ PartitionedBloom.New t.n with hf := t.hf }).SetErrorProbability
      (t.e * t.r ^ t.bfs.length)).Reset

noncomputable def ScalableBloom.addBloomFilter (t : ScalableBloom) : ScalableBloom :=
  { t with bfs := t.bfs ++ [t.newGeneration] }

/-- `scalable.New(n)`: defaults `p = 0.5`, `e = 0.001`, `r = 0.9`, FNV hasher;
appends the first generation. -/
noncomputable def ScalableBloom.New (n : ℕ) : ScalableBloom :=
  ScalableBloom.addBloomFilter
    { hf := some fnvHash, p := 1/2, e := 1/1000, r := 9/10, n := n, c := 0, bfs := [] }

def ScalableBloom.SetHasher (t : ScalableBloom) (h : HashF) : ScalableBloom :=
  { t with hf := some h }

def ScalableBloom.SetErrorProbability (t : ScalableBloom) (e : ℚ) : ScalableBloom :=
  { t with e := e }

/-- `ScalableBloom.Reset`: default the hasher if nil, drop the whole chain,
zero the counter, and append one fresh generation. -/
noncomputable def ScalableBloom.Reset (t : ScalableBloom) : ScalableBloom :=
  ScalableBloom.addBloomFilter
    { t with hf := some (t.hf.getD fnvHash), bfs := [], c := 0 }

/-- `ScalableBloom.EstimatedFillRatio` returns `bfs[len(bfs)-1].EstimatedFillRatio()`;
`none` models the index panic on an empty chain. -/
noncomputable def ScalableBloom.EstimatedFillRatio (t : ScalableBloom) : Option ℝ :=
  t.bfs.getLast?.map PartitionedBloom.EstimatedFillRatio

/-- `ScalableBloom.FillRatio` returns the average of the generations' fill ratios. -/
def ScalableBloom.FillRatio (t : ScalableBloom) : ℚ :=
  (t.bfs.map PartitionedBloom.FillRatio).sum / (t.bfs.length : ℚ)

open Classical in
/-- `ScalableBloom.Add`: if the last generation's estimated fill ratio exceeds
`p`, append a new generation; insert into the (possibly new) last generation;
bump `c`.  `none` models the `bfs[-1]` panic on an empty chain and any panic
inside the underlying `Add`. -/
noncomputable def ScalableBloom.Add (t : ScalableBloom) (item : Bytes) :
    Option ScalableBloom :=
  match t.bfs.getLast? with
  | none => none
  | some g =>
    if g.EstimatedFillRatio > (t.p : ℝ) then
      (t.newGeneration.Add item).map fun g' =>
        { t with bfs := t.bfs ++ [g'], c := t.c + 1 }
    else
      (g.Add item).map fun g' =>
        { t with bfs := t.bfs.dropLast ++ [g'], c := t.c + 1 }

/-- The scan `for i := l-1; i >= 0; i--` of `ScalableBloom.Check`, expressed on
the reversed chain: stop with `true` at the first generation that reports a
hit; propagate the mutated scratch state of every generation actually visited. -/
def scanGens (item : Bytes) : List PartitionedBloom → Option (Bool × List PartitionedBloom)
  | [] => some (false, [])
  | g :: rest =>
    match g.Check item with
    | none => none
    | some (r, g') =>
      if r then some (true, g' :: rest)
      else (scanGens item rest).map fun p => (p.1, g' :: p.2)

/-- `ScalableBloom.Check`: scan the generations newest to oldest. -/
def ScalableBloom.Check (t : ScalableBloom) (item : Bytes) :
    Option (Bool × ScalableBloom) :=
  (scanGens item t.bfs.reverse).map fun p => (p.1, { t with bfs := p.2.reverse })

def ScalableBloom.CheckB (t : ScalableBloom) (item : Bytes) : Option Bool :=
  (t.Check item).map Prod.fst

def ScalableBloom.Count (t : ScalableBloom) : ℕ := t.c

/-! ## Reachability and iterated additions -/

/-- States of a scalable filter reachable from construction through the
mutating chain operations `Add` and `Reset`. -/
inductive ScalReachable : ScalableBloom → Prop
  | new (n : ℕ) : ScalReachable (ScalableBloom.New n)
  | add {t t' : ScalableBloom} (x : Bytes) :
      ScalReachable t → t.Add x = some t' → ScalReachable t'
  | reset {t : ScalableBloom} : ScalReachable t → ScalReachable t.Reset

/-- Zero or more successful `Add` calls on a standard filter. -/
inductive StdAdds : StandardBloom → StandardBloom → Prop
  | refl (t : StandardBloom) : StdAdds t t
  | tail {t t' t'' : StandardBloom} (x : Bytes) :
      StdAdds t t' → t'.Add x = some t'' → StdAdds t t''

/-- Zero or more successful `Add` calls on a partitioned filter. -/
inductive PartAdds : PartitionedBloom → PartitionedBloom → Prop
  | refl (t : PartitionedBloom) : PartAdds t t
  | tail {t t' t'' : PartitionedBloom} (x : Bytes) :
      PartAdds t t' → t'.Add x = some t'' → PartAdds t t''

/-- Zero or more successful `Add` calls on a scalable filter. -/
inductive ScalAdds : ScalableBloom → ScalableBloom → Prop
  | refl (t : ScalableBloom) : ScalAdds t t
  | tail {t t' t'' : ScalableBloom} (x : Bytes) :
      ScalAdds t t' → t'.Add x = some t'' → ScalAdds t t''

/-- Fold a list of items through `ScalableBloom.Add`. -/
noncomputable def scalAddAll (l : List Bytes) (t : ScalableBloom) : Option ScalableBloom :=
  l.foldlM (fun acc x => ScalableBloom.Add acc x) t

/-! ## Basic helper lemmas -/

theorem bool_eq_decide {bb : Bool} {p : Prop} [Decidable p] (h : bb = true ↔ p) :
    bb = decide p := by
  cases hb : bb
  · simp [hb] at h
    simp [h]
  · simp [hb] at h
    simp [h]

theorem beUint32_lt {d : Bytes} {off a : ℕ} (h : beUint32 d off = some a) :
    a < 2 ^ 32 := by
  unfold beUint32 at h
  rcases h0 : d[off]? with _ | b0 <;> simp [h0] at h
  rcases h1 : d[off + 1]? with _ | b1 <;> simp [h1] at h
  rcases h2 : d[off + 2]? with _ | b2 <;> simp [h2] at h
  rcases h3 : d[off + 3]? with _ | b3 <;> simp [h3] at h
  have e0 := b0.isLt
  have e1 := b1.isLt
  have e2 := b2.isLt
  have e3 := b3.isLt
  omega

theorem beUint32_isSome_of_length (d : Bytes) (off : ℕ) (h : off + 4 ≤ d.length) :
    ∃ a, beUint32 d off = some a := by
  unfold beUint32
  rcases h0 : d[off]? with _ | b0
  · rw [List.getElem?_eq_none_iff] at h0; omega
  rcases h1 : d[off + 1]? with _ | b1
  · rw [List.getElem?_eq_none_iff] at h1; omega
  rcases h2 : d[off + 2]? with _ | b2
  · rw [List.getElem?_eq_none_iff] at h2; omega
  rcases h3 : d[off + 3]? with _ | b3
  · rw [List.getElem?_eq_none_iff] at h3; omega
  refine ⟨((b0.val * 256 + b1.val) * 256 + b2.val) * 256 + b3.val, ?_⟩
  simp [h0, h1, h2, h3]

theorem fnvHash_length (d : Bytes) : (fnvHash d).length = 8 := by
  simp [fnvHash, toBytesBE]

theorem foldl_insert_eq_union (ix : List ℕ) (b : Finset ℕ) :
    ix.foldl (fun s v => insert v s) b = b ∪ ix.toFinset := by
  induction ix generalizing b with
  | nil => simp
  | cons v tl ih =>
    simp only [List.foldl_cons, ih, List.toFinset_cons]
    ext w
    simp [or_comm, or_left_comm]

/-! ## `setParts` lemmas -/

theorem setParts_nil_right (b : List (Finset ℕ)) : setParts b [] = b := by
  simp [setParts]

theorem setParts_nil_left (ix : List ℕ) : setParts [] ix = [] := by
  simp [setParts]

theorem setParts_cons (s : Finset ℕ) (b : List (Finset ℕ)) (v : ℕ) (ix : List ℕ) :
    setParts (s :: b) (v :: ix) = insert v s :: setParts b ix := by
  simp [setParts]

theorem length_setParts (b : List (Finset ℕ)) (ix : List ℕ) :
    (setParts b ix).length = b.length := by
  induction b generalizing ix with
  | nil => simp [setParts_nil_left]
  | cons s tl ih =>
    cases ix with
    | nil => simp [setParts_nil_right]
    | cons v iy => simp [setParts_cons, ih]

theorem setParts_getElem?_lt (b : List (Finset ℕ)) (ix : List ℕ) (i : ℕ)
    (hi : i < ix.length) :
    (setParts b ix)[i]? = (b[i]?).map fun s => insert ix[i] s := by
  induction b generalizing ix i with
  | nil => simp [setParts_nil_left]
  | cons s tl ih =>
    cases ix with
    | nil => simp at hi
    | cons v iy =>
      cases i with
      | zero => simp [setParts_cons]
      | succ j =>
        simp only [setParts_cons, List.getElem?_cons_succ, List.getElem_cons_succ]
        exact ih iy j (by simpa using hi)

theorem setParts_getElem?_ge (b : List (Finset ℕ)) (ix : List ℕ) (i : ℕ)
    (hi : ix.length ≤ i) :
    (setParts b ix)[i]? = b[i]? := by
  induction b generalizing ix i with
  | nil => simp [setParts_nil_left]
  | cons s tl ih =>
    cases ix with
    | nil => simp [setParts_nil_right]
    | cons v iy =>
      cases i with
      | zero => simp at hi
      | succ j =>
        simp only [setParts_cons, List.getElem?_cons_succ]
        exact ih iy j (by simpa using hi)

theorem all_zip_setParts_self (b : List (Finset ℕ)) (ix : List ℕ)
    (h : ix.length ≤ b.length) :
    (((setParts b ix).zip ix).all fun sv => decide (sv.2 ∈ sv.1)) = true := by
  induction b generalizing ix with
  | nil =>
    cases ix with
    | nil => simp
    | cons v iy => simp at h
  | cons s tl ih =>
    cases ix with
    | nil => simp
    | cons v iy =>
      simp only [setParts_cons, List.zip_cons_cons, List.all_cons, Bool.and_eq_true,
        decide_eq_true_eq]
      exact ⟨Finset.mem_insert_self v s, ih iy (by simpa using h)⟩

theorem all_zip_setParts_mono (b : List (Finset ℕ)) (ix iy : List ℕ)
    (h : ((b.zip ix).all fun sv => decide (sv.2 ∈ sv.1)) = true) :
    (((setParts b iy).zip ix).all fun sv => decide (sv.2 ∈ sv.1)) = true := by
  induction b generalizing ix iy with
  | nil => simp [setParts_nil_left]
  | cons s tl ih =>
    cases ix with
    | nil => simp
    | cons v ixs =>
      cases iy with
      | nil => simpa [setParts_nil_right] using h
      | cons w iys =>
        simp only [List.zip_cons_cons, List.all_cons, Bool.and_eq_true,
          decide_eq_true_eq] at h
        simp only [setParts_cons, List.zip_cons_cons, List.all_cons, Bool.and_eq_true,
          decide_eq_true_eq]
        exact ⟨Finset.mem_insert_of_mem h.1, ih ixs iys h.2⟩

/-! ## Characterizations of `bits`, `Add`, `Check` (standard) -/

theorem StandardBloom.std_bits_some {t : StandardBloom} {item : Bytes} {ix : List ℕ}
    (h : t.bits item = some ix) :
    ∃ h0 a b, t.hf = some h0 ∧
      beUint32 (h0 item) 4 = some a ∧ beUint32 (h0 item) 0 = some b ∧
      t.k ≤ t.bs.length ∧ ¬(0 < t.k ∧ t.m = 0) ∧
      ix = (List.range t.k).map fun i => (a + b * i) % 2 ^ 64 % t.m := by
  unfold StandardBloom.bits at h
  rcases hh : t.hf with _ | h0 <;> rw [hh] at h
  · simp at h
  simp only [Option.bind_eq_bind, Option.some_bind] at h
  rcases ha : beUint32 (h0 item) 4 with _ | a <;> rw [ha] at h
  · simp at h
  rcases hb : beUint32 (h0 item) 0 with _ | b <;> rw [hb] at h
  · simp at h
  simp only [Option.some_bind] at h
  by_cases hlen : t.k ≤ t.bs.length
  · rw [if_pos hlen] at h
    by_cases hg : 0 < t.k ∧ t.m = 0
    · rw [if_pos hg] at h; simp at h
    · rw [if_neg hg] at h
      exact ⟨h0, a, b, rfl, ha, hb, hlen, hg, (Option.some_inj.mp h).symm⟩
  · rw [if_neg hlen] at h; simp at h

theorem StandardBloom.std_bits_intro (t : StandardBloom) (item : Bytes) {h0 : HashF}
    {a b : ℕ} (hh : t.hf = some h0)
    (ha : beUint32 (h0 item) 4 = some a) (hb : beUint32 (h0 item) 0 = some b)
    (hlen : t.k ≤ t.bs.length) (hg : ¬(0 < t.k ∧ t.m = 0)) :
    t.bits item = some ((List.range t.k).map fun i => (a + b * i) % 2 ^ 64 % t.m) := by
  unfold StandardBloom.bits
  rw [hh]
  simp only [Option.bind_eq_bind, Option.some_bind, ha, hb]
  rw [if_pos hlen, if_neg hg]

/-- `bits` depends only on the hasher, `k`, `m` and the scratch length. -/
theorem StandardBloom.std_bits_congr {t t' : StandardBloom} (item : Bytes)
    (hh : t'.hf = t.hf) (hk : t'.k = t.k) (hm : t'.m = t.m)
    (hl : t'.bs.length = t.bs.length) :
    t'.bits item = t.bits item := by
  unfold StandardBloom.bits
  rw [hh, hk, hm, hl]

theorem StandardBloom.std_add_some {t t' : StandardBloom} {item : Bytes}
    (h : t.Add item = some t') :
    ∃ ix, t.bits item = some ix ∧
      t' = { t with bs := ix ++ t.bs.drop t.k,
                    b := ix.foldl (fun s v => insert v s) t.b,
                    c := t.c + 1 } := by
  unfold StandardBloom.Add at h
  rcases hb : t.bits item with _ | ix <;> rw [hb] at h
  · simp at h
  · exact ⟨ix, rfl, (Option.some_inj.mp h).symm⟩

theorem StandardBloom.std_check_some {t : StandardBloom} {item : Bytes} {r : Bool}
    {u : StandardBloom} (h : t.Check item = some (r, u)) :
    ∃ ix, t.bits item = some ix ∧
      r = (ix.all fun v => decide (v ∈ t.b)) ∧
      u = { t with bs := ix ++ t.bs.drop t.k } := by
  unfold StandardBloom.Check at h
  rcases hb : t.bits item with _ | ix <;> rw [hb] at h
  · simp at h
  · simp only [Option.map_some', Option.some_inj] at h
    exact ⟨ix, rfl, congrArg Prod.fst h.symm, congrArg Prod.snd h.symm⟩

theorem StandardBloom.std_bits_length {t : StandardBloom} {item : Bytes} {ix : List ℕ}
    (h : t.bits item = some ix) : ix.length = t.k := by
  obtain ⟨h0, a, b, -, -, -, -, -, hix⟩ := StandardBloom.std_bits_some h
  simp [hix]

/-- After a successful `Add`, `bits` computes the same positions as before:
the hasher, `k`, `m` and the scratch-slice length are unchanged. -/
theorem StandardBloom.std_bits_after_add {t t' : StandardBloom} {y : Bytes}
    (h : t.Add y = some t') (x : Bytes) : t'.bits x = t.bits x := by
  obtain ⟨ix, hbits, rfl⟩ := StandardBloom.std_add_some h
  obtain ⟨h0, a, b, -, -, -, hlen, -, -⟩ := StandardBloom.std_bits_some hbits
  have hl : ix.length = t.k := StandardBloom.std_bits_length hbits
  refine StandardBloom.std_bits_congr x rfl rfl rfl ?_
  show (ix ++ t.bs.drop t.k).length = t.bs.length
  simp only [List.length_append, List.length_drop, hl]
  omega

/-- A successful `Add` preserves every parameter field, only grows the bit
set, and bumps `c`. -/
theorem StandardBloom.std_add_frame {t t' : StandardBloom} {item : Bytes}
    (h : t.Add item = some t') :
    t'.hf = t.hf ∧ t'.k = t.k ∧ t'.m = t.m ∧ t'.s = t.s ∧ t'.p = t.p ∧
    t'.e = t.e ∧ t'.n = t.n ∧ t'.c = t.c + 1 ∧ t.b ⊆ t'.b := by
  obtain ⟨ix, hbits, rfl⟩ := StandardBloom.std_add_some h
  refine ⟨rfl, rfl, rfl, rfl, rfl, rfl, rfl, rfl, ?_⟩
  show t.b ⊆ ix.foldl (fun s v => insert v s) t.b
  rw [foldl_insert_eq_union]
  exact Finset.subset_union_left

theorem StandardBloom.std_add_check_self {t t' : StandardBloom} {item : Bytes}
    (h : t.Add item = some t') : t'.CheckB item = some true := by
  have hbx : t'.bits item = t.bits item := StandardBloom.std_bits_after_add h item
  obtain ⟨ix, hbits, ht'⟩ := StandardBloom.std_add_some h
  rw [hbits] at hbx
  unfold StandardBloom.CheckB StandardBloom.Check
  rw [hbx]
  simp only [Option.map_some', Option.some_inj]
  have hall : (ix.all fun v => decide (v ∈ t'.b)) = true := by
    rw [List.all_eq_true]
    intro v hv
    rw [ht']
    simp only [decide_eq_true_eq]
    show v ∈ ix.foldl (fun s v => insert v s) t.b
    rw [foldl_insert_eq_union]
    exact Finset.mem_union_right _ (List.mem_toFinset.mpr hv)
  simp [hall]

theorem StandardBloom.std_check_mono {t t' u : StandardBloom} {x y : Bytes} {r : Bool}
    (hc : t.Check x = some (r, u)) (ha : t.Add y = some t') :
    ∃ r' u', t'.Check x = some (r', u') ∧ (r = true → r' = true) := by
  have hbx' : t'.bits x = t.bits x := StandardBloom.std_bits_after_add ha x
  obtain ⟨ixx, hbx, hr, -⟩ := StandardBloom.std_check_some hc
  obtain ⟨ixy, hby, ht'⟩ := StandardBloom.std_add_some ha
  rw [hbx] at hbx'
  refine ⟨_, _, by unfold StandardBloom.Check; rw [hbx']; rfl, ?_⟩
  intro hrt
  rw [hrt] at hr
  rw [List.all_eq_true]
  intro v hv
  have hvm := (List.all_eq_true.mp hr.symm) v hv
  simp only [decide_eq_true_eq] at hvm ⊢
  rw [ht']
  show v ∈ ixy.foldl (fun s w => insert w s) t.b
  rw [foldl_insert_eq_union]
  exact Finset.mem_union_left _ hvm

/-! ## Characterizations of `bits`, `Add`, `Check` (partitioned) -/

theorem PartitionedBloom.part_bits_some {t : PartitionedBloom} {item : Bytes} {ix : List ℕ}
    (h : t.bits item = some ix) :
    ∃ h0 a b, t.hf = some h0 ∧
      beUint32 (h0 item) 4 = some a ∧ beUint32 (h0 item) 0 = some b ∧
      t.k ≤ t.bs.length ∧ ¬(0 < t.k ∧ t.s = 0) ∧
      ix = (List.range t.k).map fun i => (a + b * i) % 2 ^ 64 % t.s := by
  unfold PartitionedBloom.bits at h
  rcases hh : t.hf with _ | h0 <;> rw [hh] at h
  · simp at h
  simp only [Option.bind_eq_bind, Option.some_bind] at h
  rcases ha : beUint32 (h0 item) 4 with _ | a <;> rw [ha] at h
  · simp at h
  rcases hb : beUint32 (h0 item) 0 with _ | b <;> rw [hb] at h
  · simp at h
  simp only [Option.some_bind] at h
  by_cases hlen : t.k ≤ t.bs.length
  · rw [if_pos hlen] at h
    by_cases hg : 0 < t.k ∧ t.s = 0
    · rw [if_pos hg] at h; simp at h
    · rw [if_neg hg] at h
      exact ⟨h0, a, b, rfl, ha, hb, hlen, hg, (Option.some_inj.mp h).symm⟩
  · rw [if_neg hlen] at h; simp at h

theorem PartitionedBloom.part_bits_intro (t : PartitionedBloom) (item : Bytes) {h0 : HashF}
    {a b : ℕ} (hh : t.hf = some h0)
    (ha : beUint32 (h0 item) 4 = some a) (hb : beUint32 (h0 item) 0 = some b)
    (hlen : t.k ≤ t.bs.length) (hg : ¬(0 < t.k ∧ t.s = 0)) :
    t.bits item = some ((List.range t.k).map fun i => (a + b * i) % 2 ^ 64 % t.s) := by
  unfold PartitionedBloom.bits
  rw [hh]
  simp only [Option.bind_eq_bind, Option.some_bind, ha, hb]
  rw [if_pos hlen, if_neg hg]

theorem PartitionedBloom.part_bits_congr {t t' : PartitionedBloom} (item : Bytes)
    (hh : t'.hf = t.hf) (hk : t'.k = t.k) (hs : t'.s = t.s)
    (hl : t'.bs.length = t.bs.length) :
    t'.bits item = t.bits item := by
  unfold PartitionedBloom.bits
  rw [hh, hk, hs, hl]

theorem PartitionedBloom.part_bits_length {t : PartitionedBloom} {item : Bytes} {ix : List ℕ}
    (h : t.bits item = some ix) : ix.length = t.k := by
  obtain ⟨h0, a, b, -, -, -, -, -, hix⟩ := PartitionedBloom.part_bits_some h
  simp [hix]

theorem PartitionedBloom.part_add_some {t t' : PartitionedBloom} {item : Bytes}
    (h : t.Add item = some t') :
    ∃ ix, t.bits item = some ix ∧ t.k ≤ t.b.length ∧
      t' = { t with bs := ix ++ t.bs.drop t.k,
                    b := setParts t.b ix,
                    c := t.c + 1 } := by
  unfold PartitionedBloom.Add at h
  rcases hb : t.bits item with _ | ix <;> rw [hb] at h
  · simp at h
  simp only [Option.bind_eq_bind, Option.some_bind] at h
  by_cases hbl : t.k ≤ t.b.length
  · rw [if_pos hbl] at h
    exact ⟨ix, rfl, hbl, (Option.some_inj.mp h).symm⟩
  · rw [if_neg hbl] at h; simp at h

theorem PartitionedBloom.part_check_some {t : PartitionedBloom} {item : Bytes} {r : Bool}
    {u : PartitionedBloom} (h : t.Check item = some (r, u)) :
    ∃ ix, t.bits item = some ix ∧ t.k ≤ t.b.length ∧
      r = ((t.b.zip ix).all fun sv => decide (sv.2 ∈ sv.1)) ∧
      u = { t with bs := ix ++ t.bs.drop t.k } := by
  unfold PartitionedBloom.Check at h
  rcases hb : t.bits item with _ | ix <;> rw [hb] at h
  · simp at h
  simp only [Option.bind_eq_bind, Option.some_bind] at h
  by_cases hbl : t.k ≤ t.b.length
  · rw [if_pos hbl] at h
    simp only [pure, Option.some_inj] at h
    exact ⟨ix, rfl, hbl, congrArg Prod.fst h.symm, congrArg Prod.snd h.symm⟩
  · rw [if_neg hbl] at h; simp at h

theorem PartitionedBloom.check_intro (t : PartitionedBloom) (item : Bytes) {ix : List ℕ}
    (hb : t.bits item = some ix) (hbl : t.k ≤ t.b.length) :
    t.Check item = some ((t.b.zip ix).all fun sv => decide (sv.2 ∈ sv.1),
      { t with bs := ix ++ t.bs.drop t.k }) := by
  unfold PartitionedBloom.Check
  rw [hb]
  simp only [Option.bind_eq_bind, Option.some_bind]
  rw [if_pos hbl]
  rfl

theorem PartitionedBloom.part_bits_after_add {t t' : PartitionedBloom} {y : Bytes}
    (h : t.Add y = some t') (x : Bytes) : t'.bits x = t.bits x := by
  obtain ⟨ix, hbits, hbl, rfl⟩ := PartitionedBloom.part_add_some h
  obtain ⟨h0, a, b, -, -, -, hlen, -, -⟩ := PartitionedBloom.part_bits_some hbits
  have hl : ix.length = t.k := PartitionedBloom.part_bits_length hbits
  refine PartitionedBloom.part_bits_congr x rfl rfl rfl ?_
  show (ix ++ t.bs.drop t.k).length = t.bs.length
  simp only [List.length_append, List.length_drop, hl]
  omega

/-- A successful `Add` preserves every parameter field and the partition count,
and bumps `c`. -/
theorem PartitionedBloom.part_add_frame {t t' : PartitionedBloom} {item : Bytes}
    (h : t.Add item = some t') :
    t'.hf = t.hf ∧ t'.k = t.k ∧ t'.m = t.m ∧ t'.s = t.s ∧ t'.p = t.p ∧
    t'.e = t.e ∧ t'.n = t.n ∧ t'.c = t.c + 1 ∧ t'.b.length = t.b.length := by
  obtain ⟨ix, hbits, hbl, rfl⟩ := PartitionedBloom.part_add_some h
  exact ⟨rfl, rfl, rfl, rfl, rfl, rfl, rfl, rfl, length_setParts t.b ix⟩

theorem PartitionedBloom.part_add_check_self {t t' : PartitionedBloom} {item : Bytes}
    (h : t.Add item = some t') : t'.CheckB item = some true := by
  have hbx : t'.bits item = t.bits item := PartitionedBloom.part_bits_after_add h item
  obtain ⟨ix, hbits, hbl, ht'⟩ := PartitionedBloom.part_add_some h
  rw [hbits] at hbx
  have hl : ix.length = t.k := PartitionedBloom.part_bits_length hbits
  have hbl' : t'.k ≤ t'.b.length := by
    rw [ht']
    show t.k ≤ (setParts t.b ix).length
    rw [length_setParts]
    exact hbl
  unfold PartitionedBloom.CheckB
  rw [PartitionedBloom.check_intro t' item hbx hbl']
  simp only [Option.map_some']
  congr 1
  have : t'.b = setParts t.b ix := by rw [ht']
  rw [this]
  exact all_zip_setParts_self t.b ix (hl ▸ hbl)

theorem PartitionedBloom.part_check_mono {t t' u : PartitionedBloom} {x y : Bytes} {r : Bool}
    (hc : t.Check x = some (r, u)) (ha : t.Add y = some t') :
    ∃ r' u', t'.Check x = some (r', u') ∧ (r = true → r' = true) := by
  have hbx' : t'.bits x = t.bits x := PartitionedBloom.part_bits_after_add ha x
  obtain ⟨ixx, hbx, hbl, hr, -⟩ := PartitionedBloom.part_check_some hc
  obtain ⟨ixy, hby, hbly, ht'⟩ := PartitionedBloom.part_add_some ha
  rw [hbx] at hbx'
  have hbl' : t'.k ≤ t'.b.length := by
    rw [ht']
    show t.k ≤ (setParts t.b ixy).length
    rw [length_setParts]
    exact hbl
  refine ⟨_, _, PartitionedBloom.check_intro t' x hbx' hbl', ?_⟩
  intro hrt
  rw [hrt] at hr
  have hb' : t'.b = setParts t.b ixy := by rw [ht']
  rw [hb']
  exact all_zip_setParts_mono t.b ixx ixy hr.symm

/-- If some state with the same hasher successfully ran `bits` on `x`, and this
filter's own guards hold, then `Check x` succeeds on it. -/
theorem PartitionedBloom.check_isSome {t : PartitionedBloom} {x : Bytes} {h0 : HashF}
    {a b : ℕ} (hh : t.hf = some h0)
    (ha : beUint32 (h0 x) 4 = some a) (hb : beUint32 (h0 x) 0 = some b)
    (hlen : t.k ≤ t.bs.length) (hg : ¬(0 < t.k ∧ t.s = 0)) (hbl : t.k ≤ t.b.length) :
    ∃ r u, t.Check x = some (r, u) := by
  have hbits := PartitionedBloom.part_bits_intro t x hh ha hb hlen hg
  exact ⟨_, _, PartitionedBloom.check_intro t x hbits hbl⟩

/-- `Check` success only depends on hasher, `k`, `s`, scratch length and
partition count; extract those facts from a successful `Check`. -/
theorem PartitionedBloom.part_check_some_inv {t : PartitionedBloom} {x : Bytes} {r : Bool}
    {u : PartitionedBloom} (h : t.Check x = some (r, u)) :
    ∃ h0 a b, t.hf = some h0 ∧
      beUint32 (h0 x) 4 = some a ∧ beUint32 (h0 x) 0 = some b ∧
      t.k ≤ t.bs.length ∧ ¬(0 < t.k ∧ t.s = 0) ∧ t.k ≤ t.b.length := by
  obtain ⟨ix, hbits, hbl, -, -⟩ := PartitionedBloom.part_check_some h
  obtain ⟨h0, a, b, hh, ha, hb, hlen, hg, -⟩ := PartitionedBloom.part_bits_some hbits
  exact ⟨h0, a, b, hh, ha, hb, hlen, hg, hbl⟩

/-! ## Scalable-filter helper lemmas -/

theorem PartitionedBloom.part_checkB_iff {t : PartitionedBloom} {x : Bytes} {r : Bool} :
    t.CheckB x = some r ↔ ∃ u, t.Check x = some (r, u) := by
  unfold PartitionedBloom.CheckB
  rcases h : t.Check x with _ | ⟨r0, u⟩
  · simp
  · simp only [Option.map_some', Option.some_inj]
    constructor
    · rintro rfl
      exact ⟨u, rfl⟩
    · rintro ⟨u', hu⟩
      rw [Prod.mk.injEq] at hu
      exact hu.1

theorem ScalableBloom.newGeneration_hf (t : ScalableBloom) :
    t.newGeneration.hf = some (t.hf.getD fnvHash) := rfl

theorem ScalableBloom.newGeneration_e (t : ScalableBloom) :
    t.newGeneration.e = t.e * t.r ^ t.bfs.length := rfl

theorem ScalableBloom.newGeneration_c (t : ScalableBloom) : t.newGeneration.c = 0 := rfl

theorem scanGens_cons_true {x : Bytes} {g g₁ : PartitionedBloom}
    {rest : List PartitionedBloom} (h : g.Check x = some (true, g₁)) :
    scanGens x (g :: rest) = some (true, g₁ :: rest) := by
  simp [scanGens, h]

theorem scanGens_cons_false {x : Bytes} {g g₁ : PartitionedBloom}
    {rest l' : List PartitionedBloom} {r : Bool} (h : g.Check x = some (false, g₁))
    (h2 : scanGens x rest = some (r, l')) :
    scanGens x (g :: rest) = some (r, g₁ :: l') := by
  simp [scanGens, h, h2]

theorem scanGens_cons_inv {x : Bytes} {g : PartitionedBloom}
    {rest l' : List PartitionedBloom} {r : Bool}
    (h : scanGens x (g :: rest) = some (r, l')) :
    ∃ rg g₁, g.Check x = some (rg, g₁) ∧
      ((rg = true ∧ r = true ∧ l' = g₁ :: rest) ∨
       (rg = false ∧ ∃ l₃, scanGens x rest = some (r, l₃) ∧ l' = g₁ :: l₃)) := by
  unfold scanGens at h
  rcases hc : g.Check x with _ | ⟨rg, g₁⟩ <;> rw [hc] at h
  · simp at h
  cases rg
  · simp only [Bool.false_eq_true, if_false] at h
    rcases hs : scanGens x rest with _ | ⟨r2, l₃⟩ <;> rw [hs] at h
    · simp at h
    · simp only [Option.map_some', Option.some_inj, Prod.mk.injEq] at h
      refine ⟨false, g₁, rfl, Or.inr ⟨rfl, l₃, ?_, h.2.symm⟩⟩
      rw [h.1]
  · simp only [if_true] at h
    rw [Option.some_inj, Prod.mk.injEq] at h
    exact ⟨true, g₁, rfl, Or.inl ⟨rfl, h.1.symm, h.2.symm⟩⟩

theorem ScalableBloom.scal_add_some {t t' : ScalableBloom} {x : Bytes}
    (h : t.Add x = some t') :
    ∃ g, t.bfs.getLast? = some g ∧
      ((g.EstimatedFillRatio > (t.p : ℝ) ∧
        ∃ g', t.newGeneration.Add x = some g' ∧
          t' = { t with bfs := t.bfs ++ [g'], c := t.c + 1 }) ∨
       (¬(g.EstimatedFillRatio > (t.p : ℝ)) ∧
        ∃ g', g.Add x = some g' ∧
          t' = { t with bfs := t.bfs.dropLast ++ [g'], c := t.c + 1 })) := by
  unfold ScalableBloom.Add at h
  rcases hl : t.bfs.getLast? with _ | g <;> rw [hl] at h
  · simp at h
  dsimp only at h
  by_cases hc : g.EstimatedFillRatio > (t.p : ℝ)
  · rw [if_pos hc] at h
    rcases ha : t.newGeneration.Add x with _ | g' <;> rw [ha] at h
    · simp at h
    · simp only [Option.map_some', Option.some_inj] at h
      exact ⟨g, rfl, Or.inl ⟨hc, g', rfl, h.symm⟩⟩
  · rw [if_neg hc] at h
    rcases ha : g.Add x with _ | g' <;> rw [ha] at h
    · simp at h
    · simp only [Option.map_some', Option.some_inj] at h
      exact ⟨g, rfl, Or.inr ⟨hc, g', ha, h.symm⟩⟩

theorem ScalableBloom.add_intro_grow {t : ScalableBloom} {x : Bytes}
    {g g' : PartitionedBloom} (hl : t.bfs.getLast? = some g)
    (hc : g.EstimatedFillRatio > (t.p : ℝ)) (ha : t.newGeneration.Add x = some g') :
    t.Add x = some { t with bfs := t.bfs ++ [g'], c := t.c + 1 } := by
  unfold ScalableBloom.Add
  rw [hl]
  dsimp only
  rw [if_pos hc, ha]
  rfl

theorem ScalableBloom.add_intro_nogrow {t : ScalableBloom} {x : Bytes}
    {g g' : PartitionedBloom} (hl : t.bfs.getLast? = some g)
    (hc : ¬(g.EstimatedFillRatio > (t.p : ℝ))) (ha : g.Add x = some g') :
    t.Add x = some { t with bfs := t.bfs.dropLast ++ [g'], c := t.c + 1 } := by
  unfold ScalableBloom.Add
  rw [hl]
  dsimp only
  rw [if_neg hc, ha]
  rfl

/-- All generations carry the scalable filter's own (non-nil) hasher. -/
def GensHF (t : ScalableBloom) : Prop :=
  ∃ h0, t.hf = some h0 ∧ ∀ g ∈ t.bfs, g.hf = some h0

theorem ScalableBloom.gensHF_add {t t' : ScalableBloom} {x : Bytes}
    (hg : GensHF t) (h : t.Add x = some t') : GensHF t' := by
  obtain ⟨h0, hh, hall⟩ := hg
  obtain ⟨g, hlast, hcase⟩ := ScalableBloom.scal_add_some h
  have hmem : g ∈ t.bfs := by
    obtain ⟨l0, hl0⟩ := List.getLast?_eq_some_iff.mp hlast
    simp [hl0]
  rcases hcase with ⟨-, g', hadd, rfl⟩ | ⟨-, g', hadd, rfl⟩
  · refine ⟨h0, hh, ?_⟩
    intro gg hgg
    simp only [List.mem_append, List.mem_singleton] at hgg
    rcases hgg with hgg | rfl
    · exact hall gg hgg
    · have h1 := (PartitionedBloom.part_add_frame hadd).1
      rw [h1, ScalableBloom.newGeneration_hf, hh]
      rfl
  · refine ⟨h0, hh, ?_⟩
    intro gg hgg
    simp only [List.mem_append, List.mem_singleton] at hgg
    rcases hgg with hgg | rfl
    · exact hall gg (List.dropLast_subset _ hgg)
    · have h1 := (PartitionedBloom.part_add_frame hadd).1
      rw [h1]
      exact hall g hmem

theorem ScalableBloom.scal_add_check_self {t t' : ScalableBloom} {x : Bytes}
    (h : t.Add x = some t') : t'.CheckB x = some true := by
  obtain ⟨g, hlast, hcase⟩ := ScalableBloom.scal_add_some h
  rcases hcase with ⟨-, g', hadd, rfl⟩ | ⟨-, g', hadd, rfl⟩ <;>
  · obtain ⟨u, hchk⟩ := PartitionedBloom.part_checkB_iff.mp
      (PartitionedBloom.part_add_check_self hadd)
    unfold ScalableBloom.CheckB ScalableBloom.Check
    show (Option.map _ (scanGens x ((_ ++ [g']).reverse))).map Prod.fst = some true
    rw [List.reverse_append]
    simp only [List.reverse_singleton, List.singleton_append]
    rw [scanGens_cons_true hchk]
    rfl

/-- `Check` answering `true` for `x` is stable under a further `Add` of an
arbitrary item, including a growth step. -/
theorem ScalableBloom.scal_check_mono {t t' : ScalableBloom} {x y : Bytes}
    (hg : GensHF t) (hc : t.CheckB x = some true) (ha : t.Add y = some t') :
    t'.CheckB x = some true := by
  obtain ⟨h0, hh, hall⟩ := hg
  -- unpack the original scan
  unfold ScalableBloom.CheckB ScalableBloom.Check at hc
  rcases hsc : scanGens x t.bfs.reverse with _ | ⟨rs, ls⟩ <;> rw [hsc] at hc
  · simp at hc
  simp only [Option.map_some', Option.some_inj] at hc
  have hrs : rs = true := hc
  rw [hrs] at hsc
  obtain ⟨g, hlast, hcase⟩ := ScalableBloom.scal_add_some ha
  obtain ⟨l0, hl0⟩ := List.getLast?_eq_some_iff.mp hlast
  have hmem : g ∈ t.bfs := by simp [hl0]
  have hrev : t.bfs.reverse = g :: l0.reverse := by
    rw [hl0, List.reverse_append]
    rfl
  rw [hrev] at hsc
  obtain ⟨rg, g₁, hgchk, hbr⟩ := scanGens_cons_inv hsc
  rcases hcase with ⟨-, g', hadd, rfl⟩ | ⟨-, g', hadd, rfl⟩
  · -- growth: the chain is t.bfs ++ [g']; the old scan is reproduced behind
    -- the new generation, whose Check on x succeeds with the shared hasher
    obtain ⟨hg0, a, b, hghf, hA, hB, -, -, -⟩ :=
      PartitionedBloom.part_check_some_inv hgchk
    have hgh : hg0 = h0 := by
      have hq := hall g hmem
      rw [hghf] at hq
      exact Option.some_inj.mp hq
    rw [hgh] at hA hB
    -- the new generation (after its own successful Add of y) can run Check on x
    obtain ⟨ixy, hbitsy, hbly, -⟩ := PartitionedBloom.part_add_some hadd
    obtain ⟨h1, a1, b1, hh1, hA1, hB1, hlen1, hgrd1, -⟩ :=
      PartitionedBloom.part_bits_some hbitsy
    have hh1' : t.newGeneration.hf = some h0 := by
      rw [ScalableBloom.newGeneration_hf, hh]
      rfl
    have hbitsx := PartitionedBloom.part_bits_intro t.newGeneration x hh1' hA hB hlen1 hgrd1
    have hNchk := PartitionedBloom.check_intro t.newGeneration x hbitsx hbly
    obtain ⟨r', u', hchk', -⟩ := PartitionedBloom.part_check_mono hNchk hadd
    unfold ScalableBloom.CheckB ScalableBloom.Check
    show (Option.map _ (scanGens x ((t.bfs ++ [g']).reverse))).map Prod.fst = some true
    rw [List.reverse_append]
    simp only [List.reverse_singleton, List.singleton_append]
    cases r'
    · rw [scanGens_cons_false hchk' (hrev ▸ hsc)]
      rfl
    · rw [scanGens_cons_true hchk']
      rfl
  · -- no growth: the last generation absorbed y, the others are unchanged
    obtain ⟨r', u', hchk', hmono⟩ := PartitionedBloom.part_check_mono hgchk hadd
    unfold ScalableBloom.CheckB ScalableBloom.Check
    have hdl : t.bfs.dropLast = l0 := by simp [hl0]
    show (Option.map _ (scanGens x ((t.bfs.dropLast ++ [g']).reverse))).map Prod.fst
      = some true
    rw [hdl, List.reverse_append]
    simp only [List.reverse_singleton, List.singleton_append]
    rcases hbr with ⟨hrg, -, -⟩ | ⟨hrg, l₃, hs₃, -⟩
    · rw [hrg] at hmono
      rw [hmono rfl] at hchk'
      rw [scanGens_cons_true hchk']
      rfl
    · cases r'
      · rw [scanGens_cons_false hchk' hs₃]
        rfl
      · rw [scanGens_cons_true hchk']
        rfl

theorem StandardBloom.std_checkB_iff {t : StandardBloom} {x : Bytes} {r : Bool} :
    t.CheckB x = some r ↔ ∃ u, t.Check x = some (r, u) := by
  unfold StandardBloom.CheckB
  rcases h : t.Check x with _ | ⟨r0, u⟩
  · simp
  · simp only [Option.map_some', Option.some_inj]
    constructor
    · rintro rfl
      exact ⟨u, rfl⟩
    · rintro ⟨u', hu⟩
      rw [Prod.mk.injEq] at hu
      exact hu.1

theorem StandardBloom.std_checkB_mono {t t' : StandardBloom} {x y : Bytes}
    (hc : t.CheckB x = some true) (ha : t.Add y = some t') :
    t'.CheckB x = some true := by
  obtain ⟨u, hchk⟩ := StandardBloom.std_checkB_iff.mp hc
  obtain ⟨r', u', hchk', himp⟩ := StandardBloom.std_check_mono hchk ha
  rw [himp rfl] at hchk'
  exact StandardBloom.std_checkB_iff.mpr ⟨u', hchk'⟩

theorem PartitionedBloom.part_checkB_mono {t t' : PartitionedBloom} {x y : Bytes}
    (hc : t.CheckB x = some true) (ha : t.Add y = some t') :
    t'.CheckB x = some true := by
  obtain ⟨u, hchk⟩ := PartitionedBloom.part_checkB_iff.mp hc
  obtain ⟨r', u', hchk', himp⟩ := PartitionedBloom.part_check_mono hchk ha
  rw [himp rfl] at hchk'
  exact PartitionedBloom.part_checkB_iff.mpr ⟨u', hchk'⟩

theorem StdAdds.std_adds_checkB {t t' : StandardBloom} {x : Bytes}
    (hc : t.CheckB x = some true) (h : StdAdds t t') : t'.CheckB x = some true := by
  induction h with
  | refl => exact hc
  | tail y h1 h2 ih => exact StandardBloom.std_checkB_mono ih h2

theorem PartAdds.part_adds_checkB {t t' : PartitionedBloom} {x : Bytes}
    (hc : t.CheckB x = some true) (h : PartAdds t t') : t'.CheckB x = some true := by
  induction h with
  | refl => exact hc
  | tail y h1 h2 ih => exact PartitionedBloom.part_checkB_mono ih h2

theorem ScalAdds.ghf {t t' : ScalableBloom} (hg : GensHF t) (h : ScalAdds t t') :
    GensHF t' := by
  induction h with
  | refl => exact hg
  | tail y h1 h2 ih => exact ScalableBloom.gensHF_add ih h2

theorem ScalAdds.scal_adds_checkB {t t' : ScalableBloom} {x : Bytes}
    (hg : GensHF t) (hc : t.CheckB x = some true) (h : ScalAdds t t') :
    t'.CheckB x = some true := by
  induction h with
  | refl => exact hc
  | tail y h1 h2 ih => exact ScalableBloom.scal_check_mono (ScalAdds.ghf hg h1) ih h2

/-! ## Claim C1 -/

/-- C1: for every filter variant (Standard, Partitioned, Scalable) with a fixed
deterministic digest source, after a successful `Add(x)` every subsequent
`Check(x)` returns `true`, and it stays `true` after any number of further
successful `Add` calls with arbitrary items, including growth of the scalable
chain.  (For the scalable filter, all generations carry the filter's hasher,
which is how every reachable chain is configured.) -/
theorem c1_no_false_negatives (x : Bytes)
    (ts ts1 ts2 : StandardBloom) (tp tp1 tp2 : PartitionedBloom)
    (tz tz1 tz2 : ScalableBloom)
    (hs : ts.Add x = some ts1) (hs2 : StdAdds ts1 ts2)
    (hp : tp.Add x = some tp1) (hp2 : PartAdds tp1 tp2)
    (hzg : GensHF tz) (hz : tz.Add x = some tz1) (hz2 : ScalAdds tz1 tz2) :
    ts1.CheckB x = some true ∧ ts2.CheckB x = some true ∧
    tp1.CheckB x = some true ∧ tp2.CheckB x = some true ∧
    tz1.CheckB x = some true ∧ tz2.CheckB x = some true := by
  have h1 := StandardBloom.std_add_check_self hs
  have h2 := PartitionedBloom.part_add_check_self hp
  have h3 := ScalableBloom.scal_add_check_self hz
  exact ⟨h1, StdAdds.std_adds_checkB h1 hs2, h2, PartAdds.part_adds_checkB h2 hp2, h3,
    ScalAdds.scal_adds_checkB (ScalableBloom.gensHF_add hzg hz) h3 hz2⟩

/-- A fixed deterministic digest source used for concrete witnesses. -/
def wHash : HashF := fun _ => [1, 2, 3, 4, 5, 6, 7, 8]

def wx : Bytes := [0]

def Ws : StandardBloom :=
  ⟨some wHash, 10, 2, 0, 1/2, 1/1000, 5, ∅, 0, [0, 0]⟩

def Wp : PartitionedBloom :=
  ⟨some wHash, 10, 2, 1/2, 1/1000, 5, 0, 7, [∅, ∅], [0, 0]⟩

def Wz : ScalableBloom :=
  ⟨some wHash, 1/2, 1/1000, 5, 0, 9/10, [Wp]⟩

theorem c1_no_false_negatives_witness :
    ∃ u1 u2 u3, Ws.Add wx = some u1 ∧ Wp.Add wx = some u2 ∧ Wz.Add wx = some u3 ∧
      u1.CheckB wx = some true ∧ u2.CheckB wx = some true ∧
      u3.CheckB wx = some true := by
  have hs : Ws.Add wx = some ((Ws.Add wx).get (by decide)) :=
    (Option.some_get _).symm
  have hp : Wp.Add wx = some ((Wp.Add wx).get (by decide)) :=
    (Option.some_get _).symm
  have hlast : Wz.bfs.getLast? = some Wp := rfl
  have hcond : ¬(Wp.EstimatedFillRatio > ((Wz.p : ℚ) : ℝ)) := by
    unfold PartitionedBloom.EstimatedFillRatio
    show ¬(1 - Real.exp (-((0:ℕ) : ℝ) / ((7:ℕ) : ℝ)) > ((1/2 : ℚ) : ℝ))
    rw [Nat.cast_zero, neg_zero, zero_div, Real.exp_zero]
    norm_num
  have hz : Wz.Add wx =
      some { Wz with bfs := Wz.bfs.dropLast ++ [(Wp.Add wx).get (by decide)],
                     c := Wz.c + 1 } :=
    ScalableBloom.add_intro_nogrow hlast hcond hp
  have hzg : GensHF Wz := by
    refine ⟨wHash, rfl, ?_⟩
    intro g hg
    have : g = Wp := by simpa [Wz] using hg
    rw [this]
    rfl
  obtain ⟨c1, c2, c3, c4, c5, c6⟩ := c1_no_false_negatives wx Ws _ _ Wp _ _ Wz _ _
    hs (StdAdds.refl _) hp (PartAdds.refl _) hzg hz (ScalAdds.refl _)
  exact ⟨_, _, _, hs, hp, hz, c1, c3, c5⟩

/-! ## Claim C10 -/

/-- Observable state of a partitioned filter: everything except the scratch
slice `bs` (which the Go `bits` overwrites on every `Add`/`Check`). -/
def PartObsEq (t u : PartitionedBloom) : Prop :=
  u.b = t.b ∧ u.c = t.c ∧ u.k = t.k ∧ u.m = t.m ∧ u.s = t.s ∧
  u.p = t.p ∧ u.e = t.e ∧ u.n = t.n ∧ u.hf = t.hf

theorem PartitionedBloom.check_obs {t u : PartitionedBloom} {x : Bytes} {r : Bool}
    (h : t.Check x = some (r, u)) : PartObsEq t u := by
  obtain ⟨ix, -, -, -, rfl⟩ := PartitionedBloom.part_check_some h
  exact ⟨rfl, rfl, rfl, rfl, rfl, rfl, rfl, rfl, rfl⟩

theorem scanGens_obs {x : Bytes} :
    ∀ {l l' : List PartitionedBloom} {r : Bool},
      scanGens x l = some (r, l') → List.Forall₂ PartObsEq l l' := by
  intro l
  induction l with
  | nil =>
    intro l' r h
    unfold scanGens at h
    rw [Option.some_inj, Prod.mk.injEq] at h
    rw [← h.2]
    exact List.Forall₂.nil
  | cons g rest ih =>
    intro l' r h
    obtain ⟨rg, g₁, hchk, hbr⟩ := scanGens_cons_inv h
    have hobs := PartitionedBloom.check_obs hchk
    rcases hbr with ⟨-, -, rfl⟩ | ⟨-, l₃, hs₃, rfl⟩
    · refine List.Forall₂.cons hobs ?_
      rw [List.forall₂_same]
      intro gg hgg
      exact ⟨rfl, rfl, rfl, rfl, rfl, rfl, rfl, rfl, rfl⟩
    · exact List.Forall₂.cons hobs (ih hs₃)

theorem ScalableBloom.scal_check_some_inv {t u : ScalableBloom} {x : Bytes} {r : Bool}
    (h : t.Check x = some (r, u)) :
    ∃ l2, scanGens x t.bfs.reverse = some (r, l2) ∧
      u = { t with bfs := l2.reverse } := by
  unfold ScalableBloom.Check at h
  rcases hs : scanGens x t.bfs.reverse with _ | ⟨r2, l2⟩ <;> rw [hs] at h
  · simp at h
  · simp only [Option.map_some', Option.some_inj, Prod.mk.injEq] at h
    exact ⟨l2, by rw [h.1], h.2.symm⟩

/-- C10: the query `Check` leaves the observable filter state unchanged on all
three variants: the bit-array contents, the add count `c`, the derived
parameters `k`/`m`/`s`, the configuration fields and (for the scalable filter)
the chain of generations are identical before and after the call.  (`Count`,
`FillRatio` and `EstimatedFillRatio` are embedded as pure functions of the
state because the Go code performs no writes in them.) -/
theorem c10_queries_preserve_state :
    (∀ (t u : StandardBloom) (x : Bytes) (r : Bool), t.Check x = some (r, u) →
      u.b = t.b ∧ u.c = t.c ∧ u.k = t.k ∧ u.m = t.m ∧ u.s = t.s ∧
      u.p = t.p ∧ u.e = t.e ∧ u.n = t.n ∧ u.hf = t.hf) ∧
    (∀ (t u : PartitionedBloom) (x : Bytes) (r : Bool), t.Check x = some (r, u) →
      u.b = t.b ∧ u.c = t.c ∧ u.k = t.k ∧ u.m = t.m ∧ u.s = t.s ∧
      u.p = t.p ∧ u.e = t.e ∧ u.n = t.n ∧ u.hf = t.hf) ∧
    (∀ (t u : ScalableBloom) (x : Bytes) (r : Bool), t.Check x = some (r, u) →
      u.c = t.c ∧ u.e = t.e ∧ u.p = t.p ∧ u.n = t.n ∧ u.r = t.r ∧
      u.hf = t.hf ∧ u.bfs.length = t.bfs.length ∧
      List.Forall₂ PartObsEq t.bfs u.bfs) := by
  refine ⟨?_, ?_, ?_⟩
  · intro t u x r h
    obtain ⟨ix, -, -, rfl⟩ := StandardBloom.std_check_some h
    exact ⟨rfl, rfl, rfl, rfl, rfl, rfl, rfl, rfl, rfl⟩
  · intro t u x r h
    exact PartitionedBloom.check_obs h
  · intro t u x r h
    obtain ⟨l2, hscan, rfl⟩ := ScalableBloom.scal_check_some_inv h
    have hfa : List.Forall₂ PartObsEq t.bfs.reverse l2 := scanGens_obs hscan
    have hfa' : List.Forall₂ PartObsEq t.bfs l2.reverse := by
      rw [← List.forall₂_reverse_iff]
      simpa using hfa
    exact ⟨rfl, rfl, rfl, rfl, rfl, rfl, hfa'.length_eq.symm, hfa'⟩

theorem c10_queries_preserve_state_witness :
    ∃ (rs : Bool) (us : StandardBloom) (rp : Bool) (up : PartitionedBloom)
      (rz : Bool) (uz : ScalableBloom),
      Ws.Check wx = some (rs, us) ∧ Wp.Check wx = some (rp, up) ∧
      Wz.Check wx = some (rz, uz) ∧
      us.b = Ws.b ∧ us.c = Ws.c ∧ up.b = Wp.b ∧ up.c = Wp.c ∧
      uz.c = Wz.c ∧ List.Forall₂ PartObsEq Wz.bfs uz.bfs := by
  obtain ⟨ps, hs⟩ : ∃ p, Ws.Check wx = some p := ⟨_, (Option.some_get (by decide)).symm⟩
  obtain ⟨pp, hp⟩ : ∃ p, Wp.Check wx = some p := ⟨_, (Option.some_get (by decide)).symm⟩
  obtain ⟨pz, hz⟩ : ∃ p, Wz.Check wx = some p := ⟨_, (Option.some_get (by decide)).symm⟩
  obtain ⟨rs, us⟩ := ps
  obtain ⟨rp, up⟩ := pp
  obtain ⟨rz, uz⟩ := pz
  obtain ⟨f1, f2, f3⟩ := c10_queries_preserve_state
  obtain ⟨g1, g2, -, -, -, -, -, -, -⟩ := f1 Ws _ wx _ hs
  obtain ⟨h1, h2, -, -, -, -, -, -, -⟩ := f2 Wp _ wx _ hp
  obtain ⟨i1, -, -, -, -, -, -, i8⟩ := f3 Wz _ wx _ hz
  exact ⟨_, _, _, _, _, _, hs, hp, hz, g1, g2, h1, h2, i1, i8⟩

/-! ## Claim C3 -/

theorem all_zip_iff_getD (b : List (Finset ℕ)) (ix : List ℕ)
    (hlen : ix.length ≤ b.length) :
    (((b.zip ix).all fun sv => decide (sv.2 ∈ sv.1)) = true ↔
      ∀ i < ix.length, ix.getD i 0 ∈ b.getD i ∅) := by
  induction b generalizing ix with
  | nil =>
    cases ix with
    | nil => simp
    | cons v t => simp at hlen
  | cons s bs ih =>
    cases ix with
    | nil => simp
    | cons v iy =>
      simp only [List.zip_cons_cons, List.all_cons, Bool.and_eq_true, decide_eq_true_eq]
      constructor
      · rintro ⟨h1, h2⟩ i hi
        cases i with
        | zero => simpa using h1
        | succ j =>
          refine (?_ : iy.getD j 0 ∈ bs.getD j ∅)
          apply (ih iy (by simpa using hlen)).mp h2 j
          simp only [List.length_cons] at hi
          omega
      · intro hh
        refine ⟨by simpa using hh 0 (by simp), (ih iy (by simpa using hlen)).mpr ?_⟩
        intro j hj
        have := hh (j + 1) (by simp only [List.length_cons]; omega)
        simpa using this

theorem getD_map_range (f : ℕ → ℕ) (k i : ℕ) (hi : i < k) :
    ((List.range k).map f).getD i 0 = f i := by
  rw [List.getD_eq_getElem?_getD, List.getElem?_map, List.getElem?_range hi]
  rfl

/-- The 64-bit `uint` sum `a + b*i` cannot wrap for 32-bit halves and any
feasible hash count, so reducing mod `2^64` is the identity here. -/
theorem uint64_no_wrap {a b i : ℕ} (ha : a < 2 ^ 32) (hb : b < 2 ^ 32)
    (hi : i < 2 ^ 32) : (a + b * i) % 2 ^ 64 = a + b * i := by
  apply Nat.mod_eq_of_lt
  have h1 : b * i ≤ 4294967295 * 4294967295 :=
    Nat.mul_le_mul (by omega) (by omega)
  norm_num at h1
  omega

/-- C3: each item is digested once, the digest is split into the 32-bit halves
`a = Uint32(d[4:8])` and `b = Uint32(d[0:4])`, and the derived indices are
`(a + b*i) mod m` (standard) resp. `(a + b*i) mod s` (partitioned) for
`i < k`; `Add` sets exactly those bits (the partitioned filter sets derived
index `i` only in partition `i`) and `Check` tests exactly those bits. -/
theorem c3_double_hashing_indices
    (ts : StandardBloom) (tp : PartitionedBloom) (x : Bytes) (h0 : HashF)
    (a b : ℕ) (hsh : ts.hf = some h0) (hph : tp.hf = some h0)
    (ha : beUint32 (h0 x) 4 = some a) (hb : beUint32 (h0 x) 0 = some b)
    (hsl : ts.k ≤ ts.bs.length) (hpl : tp.k ≤ tp.bs.length)
    (hpb : tp.k ≤ tp.b.length) (hm : 0 < ts.m) (hs : 0 < tp.s)
    (hks : ts.k ≤ 2 ^ 32) (hkp : tp.k ≤ 2 ^ 32) :
    ts.bits x = some ((List.range ts.k).map fun i => (a + b * i) % ts.m) ∧
    (∃ u, ts.Add x = some u ∧
      u.b = ts.b ∪ ((List.range ts.k).map fun i => (a + b * i) % ts.m).toFinset ∧
      u.c = ts.c + 1) ∧
    ts.CheckB x = some (decide (∀ i < ts.k, (a + b * i) % ts.m ∈ ts.b)) ∧
    tp.bits x = some ((List.range tp.k).map fun i => (a + b * i) % tp.s) ∧
    (∃ u, tp.Add x = some u ∧ u.b.length = tp.b.length ∧
      (∀ i < tp.k, u.b.getD i ∅ = insert ((a + b * i) % tp.s) (tp.b.getD i ∅)) ∧
      (∀ i, tp.k ≤ i → u.b.getD i ∅ = tp.b.getD i ∅) ∧
      u.c = tp.c + 1) ∧
    tp.CheckB x = some (decide (∀ i < tp.k, (a + b * i) % tp.s ∈ tp.b.getD i ∅)) := by
  have ha' := beUint32_lt ha
  have hb' := beUint32_lt hb
  have hmapS : ((List.range ts.k).map fun i => (a + b * i) % 2 ^ 64 % ts.m) =
      ((List.range ts.k).map fun i => (a + b * i) % ts.m) := by
    apply List.map_congr_left
    intro i hi
    rw [uint64_no_wrap ha' hb' (lt_of_lt_of_le (List.mem_range.mp hi) hks)]
  have hmapP : ((List.range tp.k).map fun i => (a + b * i) % 2 ^ 64 % tp.s) =
      ((List.range tp.k).map fun i => (a + b * i) % tp.s) := by
    apply List.map_congr_left
    intro i hi
    rw [uint64_no_wrap ha' hb' (lt_of_lt_of_le (List.mem_range.mp hi) hkp)]
  have hbitsS : ts.bits x = some ((List.range ts.k).map fun i => (a + b * i) % ts.m) := by
    rw [StandardBloom.std_bits_intro ts x hsh ha hb hsl (by omega), hmapS]
  have hbitsP : tp.bits x = some ((List.range tp.k).map fun i => (a + b * i) % tp.s) := by
    rw [PartitionedBloom.part_bits_intro tp x hph ha hb hpl (by omega), hmapP]
  have haddS : ts.Add x = some { ts with
      bs := ((List.range ts.k).map fun i => (a + b * i) % ts.m) ++ ts.bs.drop ts.k,
      b := ((List.range ts.k).map fun i => (a + b * i) % ts.m).foldl
        (fun s v => insert v s) ts.b,
      c := ts.c + 1 } := by
    unfold StandardBloom.Add
    rw [hbitsS]
    rfl
  have haddP : tp.Add x = some { tp with
      bs := ((List.range tp.k).map fun i => (a + b * i) % tp.s) ++ tp.bs.drop tp.k,
      b := setParts tp.b ((List.range tp.k).map fun i => (a + b * i) % tp.s),
      c := tp.c + 1 } := by
    unfold PartitionedBloom.Add
    rw [hbitsP]
    simp only [Option.bind_eq_bind, Option.some_bind]
    rw [if_pos hpb]
    rfl
  refine ⟨hbitsS, ?_, ?_, hbitsP, ?_, ?_⟩
  · refine ⟨_, haddS, ?_, rfl⟩
    show (((List.range ts.k).map fun i => (a + b * i) % ts.m).foldl
        (fun s v => insert v s) ts.b) = _
    rw [foldl_insert_eq_union]
  · unfold StandardBloom.CheckB StandardBloom.Check
    rw [hbitsS]
    simp only [Option.map_some', Option.some_inj]
    apply bool_eq_decide
    rw [List.all_eq_true]
    constructor
    · intro hh i hi
      have := hh _ (List.mem_map_of_mem _ (List.mem_range.mpr hi))
      simpa using this
    · intro hh v hv
      obtain ⟨i, hi, rfl⟩ := List.mem_map.mp hv
      simpa using hh i (List.mem_range.mp hi)
  · refine ⟨_, haddP, length_setParts _ _, ?_, ?_, rfl⟩
    · intro i hi
      have hil : i < ((List.range tp.k).map fun j => (a + b * j) % tp.s).length := by
        simpa using hi
      rw [List.getD_eq_getElem?_getD, setParts_getElem?_lt _ _ i hil,
        List.getD_eq_getElem?_getD]
      rcases hbi : tp.b[i]? with _ | s0
      · rw [List.getElem?_eq_none_iff] at hbi
        omega
      · simp only [Option.map_some', Option.getD_some]
        congr 1
        simp
    · intro i hi
      rw [List.getD_eq_getElem?_getD, List.getD_eq_getElem?_getD,
        setParts_getElem?_ge]
      simpa using hi
  · unfold PartitionedBloom.CheckB
    rw [PartitionedBloom.check_intro tp x hbitsP hpb]
    simp only [Option.map_some', Option.some_inj]
    apply bool_eq_decide
    rw [all_zip_iff_getD _ _ (by simpa using hpb)]
    constructor
    · intro hh i hi
      have h2 := hh i (by simpa using hi)
      rwa [getD_map_range _ _ _ hi] at h2
    · intro hh i hi
      rw [List.length_map, List.length_range] at hi
      rw [getD_map_range _ _ _ hi]
      exact hh i hi

theorem c3_double_hashing_indices_witness :
    Ws.bits wx = some ((List.range Ws.k).map fun i => (84281096 + 16909060 * i) % Ws.m) ∧
    Wp.bits wx = some ((List.range Wp.k).map fun i => (84281096 + 16909060 * i) % Wp.s) ∧
    Ws.CheckB wx = some (decide (∀ i < Ws.k, (84281096 + 16909060 * i) % Ws.m ∈ Ws.b)) := by
  obtain ⟨q1, q2, q3, q4, q5, q6⟩ :=
    c3_double_hashing_indices Ws Wp wx wHash 84281096 16909060 rfl rfl
      (by decide) (by decide) (by decide) (by decide) (by decide) (by decide)
      (by decide) (by decide) (by decide)
  exact ⟨q1, q4, q3⟩

/-! ## Claim C4 -/

def W4s : StandardBloom := ⟨some wHash, 20, 2, 0, 1/2, 1/1000, 10, {1, 2}, 3, [1, 2]⟩

def W4p : PartitionedBloom := ⟨some wHash, 20, 2, 1/2, 1/1000, 10, 2, 7, [{1}, {2}], [1, 2]⟩

/-- C4 counterexample: on the Standard and Partitioned filters, `Reset` leaves
the add counter `c` unchanged — it does not reset it to 0 as claimed. -/
theorem c4_reset_counterexample :
    W4s.Reset.c = 3 ∧ ¬(W4s.Reset.c = 0) ∧ W4p.Reset.c = 2 ∧ ¬(W4p.Reset.c = 0) := by
  refine ⟨rfl, ?_, rfl, ?_⟩
  · show ¬((3 : ℕ) = 0)
    decide
  · show ¬((2 : ℕ) = 0)
    decide

/-- C4 (amended): `Reset` recomputes the derived parameters from the current
`n`, `p`, `e`, replaces all bit storage with fresh all-zero storage, and keeps
the configured digest source (installing the default if none is configured);
the Scalable `Reset` resets `c` to 0 and replaces the chain with a single
fresh generation, while the Standard and Partitioned `Reset` leave `c`
unchanged. -/
theorem c4_reset_amended (t : StandardBloom) (u : PartitionedBloom)
    (z : ScalableBloom) :
    (t.Reset.k = K (t.e : ℝ) ∧ t.Reset.m = M t.n (t.p : ℝ) (t.e : ℝ) ∧
     t.Reset.b = ∅ ∧ t.Reset.bs = List.replicate (K (t.e : ℝ)) 0 ∧
     t.Reset.c = t.c ∧ t.Reset.hf = some (t.hf.getD fnvHash) ∧
     t.Reset.e = t.e ∧ t.Reset.n = t.n ∧ t.Reset.p = t.p) ∧
    (u.Reset.k = K (u.e : ℝ) ∧ u.Reset.m = M u.n (u.p : ℝ) (u.e : ℝ) ∧
     u.Reset.s = S (M u.n (u.p : ℝ) (u.e : ℝ)) (K (u.e : ℝ)) ∧
     u.Reset.b = makePartitions (K (u.e : ℝ)) ∧
     u.Reset.bs = List.replicate (K (u.e : ℝ)) 0 ∧
     u.Reset.c = u.c ∧ u.Reset.hf = some (u.hf.getD fnvHash)) ∧
    (z.Reset.c = 0 ∧
     z.Reset.bfs = [ScalableBloom.newGeneration
       { z with hf := some (z.hf.getD fnvHash), bfs := [], c := 0 }] ∧
     z.Reset.hf = some (z.hf.getD fnvHash) ∧
     z.Reset.bfs.map PartitionedBloom.c = [0] ∧
     z.Reset.bfs.map PartitionedBloom.e = [z.e * z.r ^ (0 : ℕ)]) := by
  refine ⟨⟨rfl, rfl, rfl, rfl, rfl, rfl, rfl, rfl, rfl⟩,
    ⟨rfl, rfl, rfl, rfl, rfl, rfl, rfl⟩, rfl, rfl, rfl, rfl, ?_⟩
  show [z.e * z.r ^ (0 : ℕ)] = [z.e * z.r ^ (0 : ℕ)]
  rfl

/-! ## Claim C5 -/

def W5 : PartitionedBloom :=
  ⟨some fnvHash, 144, 10, 1/2, 1/1000, 10, 1, 15, makePartitions 10, List.replicate 10 0⟩

def W5b : PartitionedBloom :=
  ⟨some fnvHash, 144, 10, 1/2, 1/1000, 10, 1, 15, [{0}], [0]⟩

/-- C5 counterexample: the Partitioned filter's `EstimatedFillRatio` is not
`1 - e^(-c*k/s)` — the code computes `1 - e^(-c/s)`, without the `k` factor. -/
theorem c5_efr_counterexample :
    W5.EstimatedFillRatio ≠ 1 - Real.exp (-(W5.c : ℝ) * (W5.k : ℝ) / (W5.s : ℝ)) := by
  unfold PartitionedBloom.EstimatedFillRatio
  intro hEq
  rw [sub_right_inj, Real.exp_eq_exp] at hEq
  norm_num [W5] at hEq

/-- C5 (amended): `EstimatedFillRatio` is a function of the add count `c` and
the derived parameters alone (no bit counting): `1 - e^(-c*k/m)` on the
Standard filter, but `1 - e^(-c/s)` on the Partitioned filter (the `k` factor
is absent since each add sets exactly one bit per partition). -/
theorem c5_estimated_fill_ratio (t : StandardBloom) (u : PartitionedBloom) :
    t.EstimatedFillRatio = 1 - Real.exp (-(t.c : ℝ) * (t.k : ℝ) / (t.m : ℝ)) ∧
    u.EstimatedFillRatio = 1 - Real.exp (-(u.c : ℝ) / (u.s : ℝ)) ∧
    (∀ t' : StandardBloom, t.c = t'.c → t.k = t'.k → t.m = t'.m →
      t.EstimatedFillRatio = t'.EstimatedFillRatio) ∧
    (∀ u' : PartitionedBloom, u.c = u'.c → u.s = u'.s →
      u.EstimatedFillRatio = u'.EstimatedFillRatio) := by
  refine ⟨rfl, rfl, ?_, ?_⟩
  · intro t' h1 h2 h3
    unfold StandardBloom.EstimatedFillRatio
    rw [h1, h2, h3]
  · intro u' h1 h2
    unfold PartitionedBloom.EstimatedFillRatio
    rw [h1, h2]

theorem c5_estimated_fill_ratio_witness :
    W5.EstimatedFillRatio = 1 - Real.exp (-(W5.c : ℝ) / (W5.s : ℝ)) ∧
    W5.EstimatedFillRatio = W5b.EstimatedFillRatio := by
  obtain ⟨-, q2, -, q4⟩ := c5_estimated_fill_ratio Ws W5
  exact ⟨q2, q4 W5b rfl rfl⟩

/-! ## Claim C6 -/

def W6a : PartitionedBloom := ⟨some fnvHash, 2, 1, 1/2, 1/1000, 1, 2, 2, [{0, 1}], [0]⟩

def W6b : PartitionedBloom := ⟨some fnvHash, 2, 1, 1/2, 1/1000, 1, 0, 2, [∅], [0]⟩

def W6 : ScalableBloom := ⟨some fnvHash, 1/2, 1/1000, 1, 2, 9/10, [W6a, W6b]⟩

/-- C6 counterexample: the Scalable filter's `FillRatio` is the average over
the whole chain, not the most recent generation's value. -/
theorem c6_fillratio_counterexample :
    W6.bfs.getLast? = some W6b ∧ W6.FillRatio = 1/2 ∧ W6b.FillRatio = 0 ∧
    W6.FillRatio ≠ W6b.FillRatio := by
  have h1 : W6.FillRatio = 1/2 := by
    norm_num [ScalableBloom.FillRatio, PartitionedBloom.FillRatio, W6, W6a, W6b]
  have h2 : W6b.FillRatio = 0 := by
    norm_num [PartitionedBloom.FillRatio, W6b]
  refine ⟨rfl, h1, h2, ?_⟩
  rw [h1, h2]
  norm_num

/-- C6 (amended): `EstimatedFillRatio` reports the most recent generation's
value only, but `FillRatio` returns the arithmetic mean of all generations'
fill ratios. -/
theorem c6_last_generation_ratios (t : ScalableBloom) (g : PartitionedBloom)
    (h : t.bfs.getLast? = some g) :
    t.EstimatedFillRatio = some g.EstimatedFillRatio ∧
    t.FillRatio = (t.bfs.map PartitionedBloom.FillRatio).sum / (t.bfs.length : ℚ) := by
  constructor
  · unfold ScalableBloom.EstimatedFillRatio
    rw [h]
    rfl
  · rfl

theorem c6_last_generation_ratios_witness :
    W6.EstimatedFillRatio = some W6b.EstimatedFillRatio ∧
    W6.FillRatio = (W6.bfs.map PartitionedBloom.FillRatio).sum / (W6.bfs.length : ℚ) :=
  c6_last_generation_ratios W6 W6b rfl

/-! ## Claim C8 -/

/-- A digest source producing only 4 bytes — fewer than the 8 required. -/
def shortHash : HashF := fun _ => [0, 0, 0, 0]

/-- C8: `SetHasher` performs no validation at all — it stores any hasher,
including one whose digest is shorter than 8 bytes; the failure only surfaces
later, as a panic (`none`) inside `Add`/`Check` when the digest is split. -/
theorem c8_sethasher_no_validation :
    Ws.SetHasher shortHash = { Ws with hf := some shortHash } ∧
    (Ws.SetHasher shortHash).Add wx = none ∧
    (Ws.SetHasher shortHash).CheckB wx = none ∧
    Wp.SetHasher shortHash = { Wp with hf := some shortHash } ∧
    (Wp.SetHasher shortHash).Add wx = none ∧
    (Wp.SetHasher shortHash).CheckB wx = none :=
  ⟨rfl, rfl, rfl, rfl, rfl, rfl⟩

/-! ## Claim C7 -/

theorem K_one : K ((1 : ℚ) : ℝ) = 0 := by
  unfold K
  norm_num [Real.logb_one]

theorem M_e_one (n : ℕ) (p : ℝ) : M n p ((1 : ℚ) : ℝ) = 0 := by
  unfold M
  norm_num [Real.log_one]

noncomputable def W7 : StandardBloom := (StandardBloom.New 10).SetErrorProbability 1

/-- C7: invalid configurations are not rejected.  With `e = 1` (an invalid
error rate), `Reset` returns normally and silently derives `k = 0`, `m = 0`;
afterwards `Check` reports `true` for every key — including keys never added —
instead of any configuration error having been raised. -/
theorem c7_invalid_config_not_rejected :
    W7.Reset.k = 0 ∧ W7.Reset.m = 0 ∧ W7.Reset.c = W7.c ∧
    W7.Reset.CheckB wx = some true := by
  have hk7 : W7.Reset.k = 0 := by
    show K ((1 : ℚ) : ℝ) = 0
    exact K_one
  have hm7 : W7.Reset.m = 0 := by
    show M 10 (((1 : ℚ)/2 : ℚ) : ℝ) ((1 : ℚ) : ℝ) = 0
    exact M_e_one 10 _
  obtain ⟨aa, haa⟩ :=
    beUint32_isSome_of_length (fnvHash wx) 4 (by rw [fnvHash_length])
  obtain ⟨bb, hbb⟩ :=
    beUint32_isSome_of_length (fnvHash wx) 0
      (by rw [fnvHash_length]; omega)
  have hb2 := StandardBloom.std_bits_intro W7.Reset wx rfl haa hbb
    (by rw [hk7]; exact Nat.zero_le _) (by simp [hk7])
  rw [hk7] at hb2
  simp only [List.range_zero, List.map_nil] at hb2
  refine ⟨hk7, hm7, rfl, ?_⟩
  unfold StandardBloom.CheckB StandardBloom.Check
  rw [hb2]
  rfl

/-! ## Claim C2 -/

theorem addBF_map_e (t : ScalableBloom) :
    t.addBloomFilter.bfs.map PartitionedBloom.e =
      t.bfs.map PartitionedBloom.e ++ [t.e * t.r ^ t.bfs.length] := by
  unfold ScalableBloom.addBloomFilter
  rw [show ({ t with bfs := t.bfs ++ [t.newGeneration] } : ScalableBloom).bfs
      = t.bfs ++ [t.newGeneration] from rfl]
  rw [List.map_append]
  rfl

/-- Invariant of every reachable scalable filter: default `e` and `r`, a
non-empty chain, and generation `i` configured with error budget `e * r^i`. -/
theorem scalReachable_inv {t : ScalableBloom} (h : ScalReachable t) :
    t.e = 1/1000 ∧ t.r = 9/10 ∧ t.bfs ≠ [] ∧
    t.bfs.map PartitionedBloom.e =
      (List.range t.bfs.length).map fun i => t.e * t.r ^ i := by
  induction h with
  | new n =>
    refine ⟨rfl, rfl, by simp [ScalableBloom.New, ScalableBloom.addBloomFilter], ?_⟩
    show (ScalableBloom.addBloomFilter _).bfs.map PartitionedBloom.e = _
    rw [addBF_map_e]
    rfl
  | add x hr hadd ih =>
    obtain ⟨he, hrr, hne, hmap⟩ := ih
    rename_i t0 t1
    obtain ⟨g, hlast, hcase⟩ := ScalableBloom.scal_add_some hadd
    obtain ⟨l0, hl0⟩ := List.getLast?_eq_some_iff.mp hlast
    rcases hcase with ⟨-, g', hadd', rfl⟩ | ⟨-, g', hadd', rfl⟩
    · refine ⟨he, hrr, by simp, ?_⟩
      have hge : g'.e = t0.e * t0.r ^ t0.bfs.length := by
        have h6 := (PartitionedBloom.part_add_frame hadd').2.2.2.2.2.1
        rw [h6, ScalableBloom.newGeneration_e]
      show (t0.bfs ++ [g']).map PartitionedBloom.e =
        (List.range (t0.bfs ++ [g']).length).map fun i => t0.e * t0.r ^ i
      rw [List.map_append, hmap, List.length_append, List.length_singleton,
        List.range_succ, List.map_append]
      simp [hge]
    · refine ⟨he, hrr, by simp, ?_⟩
      have hge : g'.e = g.e := (PartitionedBloom.part_add_frame hadd').2.2.2.2.2.1
      have hdl : t0.bfs.dropLast = l0 := by simp [hl0]
      show (t0.bfs.dropLast ++ [g']).map PartitionedBloom.e =
        (List.range (t0.bfs.dropLast ++ [g']).length).map fun i => t0.e * t0.r ^ i
      have hlen : (t0.bfs.dropLast ++ [g']).length = t0.bfs.length := by
        rw [hdl, hl0]
        simp
      rw [hlen, ← hmap, hdl, hl0, List.map_append, List.map_append]
      simp [hge]
  | reset hr ih =>
    obtain ⟨he, hrr, -, -⟩ := ih
    rename_i t0
    refine ⟨he, hrr, by simp [ScalableBloom.Reset, ScalableBloom.addBloomFilter], ?_⟩
    show (ScalableBloom.addBloomFilter _).bfs.map PartitionedBloom.e = _
    rw [addBF_map_e]
    rfl

/-- C2: in every reachable state of a scalable filter the chain is non-empty;
generation `i` was configured with error budget `e * r^i`, strictly decreasing
along the chain; `Add` appends a new generation exactly when the last
generation's estimated fill ratio exceeds `p` and inserts only into the last
generation, never removing or merging generations; `Reset` replaces the chain
with a single fresh generation. -/
theorem c2_scalable_chain_invariants (t : ScalableBloom) (h : ScalReachable t) :
    t.bfs ≠ [] ∧
    (∀ i (hi : i < t.bfs.length), (t.bfs.get ⟨i, hi⟩).e = t.e * t.r ^ i) ∧
    (∀ i j (hi : i < t.bfs.length) (hj : j < t.bfs.length), i < j →
      (t.bfs.get ⟨j, hj⟩).e < (t.bfs.get ⟨i, hi⟩).e) ∧
    (∀ x t' g, t.bfs.getLast? = some g → t.Add x = some t' →
      (t'.bfs.length = t.bfs.length + 1 ↔ g.EstimatedFillRatio > (t.p : ℝ)) ∧
      (g.EstimatedFillRatio > (t.p : ℝ) →
        ∃ g', t.newGeneration.Add x = some g' ∧ t'.bfs = t.bfs ++ [g'] ∧
          g'.e = t.e * t.r ^ t.bfs.length) ∧
      (¬(g.EstimatedFillRatio > (t.p : ℝ)) →
        ∃ g', g.Add x = some g' ∧ t'.bfs = t.bfs.dropLast ++ [g'] ∧
          t'.bfs.dropLast = t.bfs.dropLast)) ∧
    (t.Reset.bfs.length = 1 ∧ t.Reset.c = 0 ∧
     t.Reset.bfs.map PartitionedBloom.e = [t.e * t.r ^ (0 : ℕ)] ∧
     t.Reset.bfs.map PartitionedBloom.c = [0]) := by
  obtain ⟨he, hrr, hne, hmap⟩ := scalReachable_inv h
  have hpt : ∀ i (hi : i < t.bfs.length), (t.bfs.get ⟨i, hi⟩).e = t.e * t.r ^ i := by
    intro i hi
    have h1 := congrArg (fun l => l[i]?) hmap
    simp only [List.getElem?_map, List.getElem?_range hi,
      List.getElem?_eq_getElem hi, Option.map_some'] at h1
    rw [Option.some_inj] at h1
    exact h1
  refine ⟨hne, hpt, ?_, ?_, ?_⟩
  · intro i j hi hj hij
    rw [hpt i hi, hpt j hj, he, hrr]
    have hq : ((9:ℚ)/10) ^ j < ((9:ℚ)/10) ^ i :=
      pow_lt_pow_right_of_lt_one₀ (by norm_num) (by norm_num) hij
    have hpos : (0:ℚ) < 1/1000 := by norm_num
    exact mul_lt_mul_of_pos_left hq hpos
  · intro x t' g hlast hadd
    obtain ⟨g2, hlast2, hcase⟩ := ScalableBloom.scal_add_some hadd
    rw [hlast] at hlast2
    rw [← Option.some_inj.mp hlast2] at hcase
    obtain ⟨l0, hl0⟩ := List.getLast?_eq_some_iff.mp hlast
    have hlen0 : t.bfs.length = l0.length + 1 := by rw [hl0]; simp
    rcases hcase with ⟨hc, g', hadd', rfl⟩ | ⟨hc, g', hadd', rfl⟩
    · have hge : g'.e = t.e * t.r ^ t.bfs.length := by
        have h6 := (PartitionedBloom.part_add_frame hadd').2.2.2.2.2.1
        rw [h6, ScalableBloom.newGeneration_e]
      refine ⟨?_, fun hyp => ⟨g', hadd', rfl, hge⟩, fun hyp => absurd hc hyp⟩
      constructor
      · intro hyp
        exact hc
      · intro hyp
        show (t.bfs ++ [g']).length = t.bfs.length + 1
        simp
    · refine ⟨?_, fun hyp => absurd hyp hc, fun hyp => ⟨g', hadd', rfl, by simp⟩⟩
      constructor
      · intro hyp
        exfalso
        have hl1 : (t.bfs.dropLast ++ [g']).length = t.bfs.length := by
          rw [hl0]
          simp
        show False
        rw [show ({ t with bfs := t.bfs.dropLast ++ [g'], c := t.c + 1 } :
          ScalableBloom).bfs = t.bfs.dropLast ++ [g'] from rfl] at hyp
        omega
      · intro hyp
        exact absurd hyp hc
  · refine ⟨?_, rfl, ?_, ?_⟩
    · show ((({ t with hf := some (t.hf.getD fnvHash), bfs := [], c := 0 } :
        ScalableBloom)).addBloomFilter).bfs.length = 1
      rfl
    · show (ScalableBloom.addBloomFilter _).bfs.map PartitionedBloom.e = _
      rw [addBF_map_e]
      rfl
    · rfl

theorem c2_scalable_chain_invariants_witness :
    (ScalableBloom.New 10).bfs ≠ [] ∧ (ScalableBloom.New 10).Reset.c = 0 := by
  obtain ⟨q1, -, -, -, -, q2, -⟩ :=
    c2_scalable_chain_invariants (ScalableBloom.New 10) (ScalReachable.new 10)
  exact ⟨q1, q2⟩

/-! ## Claim C9: concrete parameter values and threshold facts -/

theorem log_ratio_bounds :
    (3 : ℝ)/128 ≤ Real.log (128/125) ∧ Real.log ((128:ℝ)/125) ≤ 3/125 := by
  constructor
  · have h2 := Real.log_le_sub_one_of_pos (x := (125/128 : ℝ)) (by norm_num)
    have h3 : Real.log ((125:ℝ)/128) = -Real.log (128/125) := by
      rw [← Real.log_inv]
      norm_num
    rw [h3] at h2
    have : (125:ℝ)/128 - 1 = -(3/128) := by norm_num
    linarith
  · have h1 := Real.log_le_sub_one_of_pos (x := (128/125 : ℝ)) (by norm_num)
    have : (128:ℝ)/125 - 1 = 3/125 := by norm_num
    linarith

theorem log_thousand_bounds :
    (6.907471803 : ℝ) ≤ Real.log 1000 ∧ Real.log 1000 ≤ 6.908034308 := by
  have h1024 : (1000 : ℝ) = 2^(10:ℕ) / (128/125) := by norm_num
  have hlog : Real.log 1000 = 10 * Real.log 2 - Real.log (128/125) := by
    rw [h1024, Real.log_div (by norm_num) (by norm_num), Real.log_pow]
    push_cast
    ring
  obtain ⟨hlo, hup⟩ := log_ratio_bounds
  have hl2g := Real.log_two_gt_d9
  have hl2l := Real.log_two_lt_d9
  constructor
  · rw [hlog]
    linarith
  · rw [hlog]
    linarith

theorem K_thousandth : K (1/1000 : ℝ) = 10 := by
  unfold K
  have h1 : (1:ℝ) / (1/1000) = 1000 := by norm_num
  rw [h1]
  have hb : Real.logb 2 1000 = Real.log 1000 / Real.log 2 := rfl
  obtain ⟨hlo, hup⟩ := log_thousand_bounds
  have hl2g := Real.log_two_gt_d9
  have hl2l := Real.log_two_lt_d9
  have hl2p : (0:ℝ) < Real.log 2 := Real.log_pos (by norm_num)
  have h9 : (9:ℝ) < Real.logb 2 1000 := by
    rw [hb, lt_div_iff₀ hl2p]
    nlinarith
  have h10 : Real.logb 2 1000 ≤ 10 := by
    rw [hb, div_le_iff₀ hl2p]
    nlinarith
  have hceil : ⌈Real.logb 2 1000⌉ = 10 := by
    rw [Int.ceil_eq_iff]
    constructor
    · push_cast
      linarith
    · push_cast
      linarith
  rw [hceil]
  rfl

theorem M_ten_val : M 10 (1/2 : ℝ) (1/1000 : ℝ) = 144 := by
  unfold M
  have h1 : Real.log ((1:ℝ)/2) = -Real.log 2 := by
    rw [one_div, Real.log_inv]
  have h3 : Real.log ((1:ℝ)/1000) = -Real.log 1000 := by
    rw [one_div, Real.log_inv]
  have hl1000p : (0:ℝ) < Real.log 1000 := Real.log_pos (by norm_num)
  have hx : (10 : ℝ) / (Real.log (1/2) * Real.log (1 - 1/2) / |Real.log (1/1000)|)
      = 10 * Real.log 1000 / Real.log 2 ^ 2 := by
    have h2 : (1 : ℝ) - 1/2 = 1/2 := by norm_num
    rw [h2, h1, h3, abs_neg, abs_of_pos hl1000p]
    rw [neg_mul_neg, ← sq]
    rw [div_div_eq_mul_div]
  rw [show ((10:ℕ):ℝ) = (10:ℝ) from by norm_num, hx]
  obtain ⟨hLlo, hLup⟩ := log_thousand_bounds
  have hl2g := Real.log_two_gt_d9
  have hl2l := Real.log_two_lt_d9
  have hl2p : (0:ℝ) < Real.log 2 := Real.log_pos (by norm_num)
  have hpos : (0:ℝ) < Real.log 2 ^ 2 := by positivity
  have hsqlt : Real.log 2 ^ 2 < (0.6931471808:ℝ) ^ 2 := by nlinarith
  have hsqgt : ((0.6931471803:ℝ)) ^ 2 < Real.log 2 ^ 2 := by nlinarith
  have hlow : (143 : ℝ) < 10 * Real.log 1000 / Real.log 2 ^ 2 := by
    rw [lt_div_iff₀ hpos]
    nlinarith
  have hhigh : 10 * Real.log 1000 / Real.log 2 ^ 2 ≤ 144 := by
    rw [div_le_iff₀ hpos]
    nlinarith
  have hceil : ⌈10 * Real.log 1000 / Real.log 2 ^ 2⌉ = 144 := by
    rw [Int.ceil_eq_iff]
    constructor
    · push_cast
      linarith
    · push_cast
      linarith
  rw [hceil]
  rfl

theorem S_144_10 : S 144 10 = 15 := by
  unfold S
  have hceil : ⌈((144:ℕ):ℝ) / ((10:ℕ):ℝ)⌉ = 15 := by
    rw [Int.ceil_eq_iff]
    constructor
    · push_cast
      norm_num
    · push_cast
      norm_num
  rw [hceil]
  rfl

theorem exp_two_thirds_lt_two : Real.exp (2/3 : ℝ) < 2 := by
  by_contra hcon
  push_neg at hcon
  have h3 : Real.exp (2:ℝ) = Real.exp (2/3) ^ (3:ℕ) := by
    rw [← Real.exp_nat_mul]
    norm_num
  have h8 : (8:ℝ) ≤ Real.exp 2 := by
    rw [h3]
    calc (8:ℝ) = 2 ^ (3:ℕ) := by norm_num
    _ ≤ Real.exp (2/3) ^ (3:ℕ) := pow_le_pow_left₀ (by norm_num) hcon 3
  have hlt : Real.exp (2:ℝ) < 8 := by
    have h2 : Real.exp (2:ℝ) = Real.exp 1 * Real.exp 1 := by
      rw [← Real.exp_add]
      norm_num
    nlinarith [Real.exp_one_lt_d9, Real.exp_pos 1]
  linarith

theorem two_lt_exp_eleven_fifteenths : (2:ℝ) < Real.exp (11/15) := by
  by_contra hcon
  push_neg at hcon
  have h15 : Real.exp (11:ℝ) = Real.exp (11/15) ^ (15:ℕ) := by
    rw [← Real.exp_nat_mul]
    norm_num
  have hle : Real.exp (11:ℝ) ≤ 2 ^ (15:ℕ) := by
    rw [h15]
    exact pow_le_pow_left₀ (le_of_lt (Real.exp_pos _)) hcon 15
  have hgt : (2:ℝ) ^ (15:ℕ) < Real.exp 11 := by
    have he : Real.exp (11:ℝ) = Real.exp 1 ^ (11:ℕ) := by
      rw [← Real.exp_nat_mul]
      norm_num
    have h27 : (2.7:ℝ) ^ (11:ℕ) < Real.exp 1 ^ (11:ℕ) :=
      pow_lt_pow_left₀ (lt_trans (by norm_num) Real.exp_one_gt_d9) (by norm_num) (by norm_num)
    rw [he]
    calc (2:ℝ) ^ (15:ℕ) = 32768 := by norm_num
    _ < (2.7:ℝ) ^ (11:ℕ) := by norm_num
    _ < Real.exp 1 ^ (11:ℕ) := h27
  linarith

theorem efr_not_exceeds {c : ℕ} (hc : c ≤ 10) :
    ¬(1 - Real.exp (-(c:ℝ)/15) > 1/2) := by
  intro hgt
  have hmono : Real.exp (-(10:ℝ)/15) ≤ Real.exp (-(c:ℝ)/15) := by
    apply Real.exp_le_exp.mpr
    have hcr : (c:ℝ) ≤ 10 := by exact_mod_cast hc
    linarith
  have h23 : Real.exp (-(10:ℝ)/15) = (Real.exp ((2:ℝ)/3))⁻¹ := by
    rw [← Real.exp_neg]
    norm_num
  have hp := Real.exp_pos ((2:ℝ)/3)
  have hhalf : (1/2 : ℝ) < (Real.exp ((2:ℝ)/3))⁻¹ := by
    rw [inv_eq_one_div, lt_div_iff₀ hp]
    nlinarith [exp_two_thirds_lt_two]
  rw [h23] at hmono
  linarith

theorem efr_exceeds_eleven : (1:ℝ)/2 < 1 - Real.exp (-(11:ℝ)/15) := by
  have h1 : Real.exp (-(11:ℝ)/15) = (Real.exp ((11:ℝ)/15))⁻¹ := by
    rw [← Real.exp_neg]
    norm_num
  have hp := Real.exp_pos ((11:ℝ)/15)
  have hlt : (Real.exp ((11:ℝ)/15))⁻¹ < 1/2 := by
    rw [inv_eq_one_div, div_lt_div_iff₀ hp (by norm_num : (0:ℝ) < 2)]
    nlinarith [two_lt_exp_eleven_fifteenths]
  rw [h1]
  linarith

theorem K_ge_one {e : ℝ} (h0 : 0 < e) (h1 : e < 1) : 1 ≤ K e := by
  unfold K
  have hgt : (1:ℝ) < 1/e := by
    rw [lt_div_iff₀ h0]
    linarith
  have hpos : 0 < Real.logb 2 (1/e) := Real.logb_pos (by norm_num) hgt
  have hc : 0 < ⌈Real.logb 2 (1/e)⌉ := Int.ceil_pos.mpr hpos
  omega

theorem M_ge_one {n : ℕ} {p e : ℝ} (hn : 0 < n) (hp0 : 0 < p) (hp1 : p < 1)
    (he0 : 0 < e) (he1 : e < 1) : 1 ≤ M n p e := by
  unfold M
  have hlp : Real.log p < 0 := Real.log_neg hp0 hp1
  have hlq : Real.log (1 - p) < 0 := Real.log_neg (by linarith) (by linarith)
  have hle : Real.log e < 0 := Real.log_neg he0 he1
  have habs : 0 < |Real.log e| := abs_pos.mpr (ne_of_lt hle)
  have hprod : 0 < Real.log p * Real.log (1 - p) := mul_pos_of_neg_of_neg hlp hlq
  have hdenom : 0 < Real.log p * Real.log (1 - p) / |Real.log e| := div_pos hprod habs
  have hinner : 0 < (n : ℝ) / (Real.log p * Real.log (1 - p) / |Real.log e|) :=
    div_pos (by exact_mod_cast hn) hdenom
  have hc : 0 < ⌈(n : ℝ) / (Real.log p * Real.log (1 - p) / |Real.log e|)⌉ :=
    Int.ceil_pos.mpr hinner
  omega

theorem S_ge_one {m k : ℕ} (hm : 1 ≤ m) (hk : 1 ≤ k) : 1 ≤ S m k := by
  unfold S
  have hpos : (0:ℝ) < (m : ℝ) / (k : ℝ) := by
    apply div_pos
    · exact_mod_cast hm
    · exact_mod_cast hk
  have hc : 0 < ⌈(m : ℝ) / (k : ℝ)⌉ := Int.ceil_pos.mpr hpos
  omega

theorem PartitionedBloom.add_intro (t : PartitionedBloom) (x : Bytes) {ix : List ℕ}
    (hb : t.bits x = some ix) (hbl : t.k ≤ t.b.length) :
    t.Add x = some { t with bs := ix ++ t.bs.drop t.k,
                            b := setParts t.b ix, c := t.c + 1 } := by
  unfold PartitionedBloom.Add
  rw [hb]
  simp only [Option.bind_eq_bind, Option.some_bind]
  rw [if_pos hbl]
  rfl

/-- The shape of the single generation of a freshly constructed scalable filter
with `n = 10`: default `e = 0.001` gives `k = 10`, `m = 144`, `s = 15`. -/
def GenInv (g : PartitionedBloom) (j : ℕ) : Prop :=
  g.hf = some fnvHash ∧ g.k = 10 ∧ g.s = 15 ∧ g.c = j ∧
  10 ≤ g.bs.length ∧ 10 ≤ g.b.length

theorem scalNew10_gen0 :
    ∃ g0, (ScalableBloom.New 10).bfs = [g0] ∧ GenInv g0 0 := by
  have hcast : (((1:ℚ)/1000 * ((9:ℚ)/10) ^ (0:ℕ) : ℚ) : ℝ) = 1/1000 := by
    push_cast
    norm_num
  have hp2 : (((1:ℚ)/2 : ℚ) : ℝ) = 1/2 := by
    push_cast
    norm_num
  have hk : K (((1:ℚ)/1000 * ((9:ℚ)/10) ^ (0:ℕ) : ℚ) : ℝ) = 10 := by
    rw [hcast]
    exact K_thousandth
  have hm : M 10 (((1:ℚ)/2 : ℚ) : ℝ) (((1:ℚ)/1000 * ((9:ℚ)/10) ^ (0:ℕ) : ℚ) : ℝ) = 144 := by
    rw [hcast, hp2]
    exact M_ten_val
  refine ⟨_, rfl, rfl, ?_, ?_, rfl, ?_, ?_⟩
  · show K (((1:ℚ)/1000 * ((9:ℚ)/10) ^ (0:ℕ) : ℚ) : ℝ) = 10
    exact hk
  · show S (M 10 (((1:ℚ)/2 : ℚ) : ℝ) (((1:ℚ)/1000 * ((9:ℚ)/10) ^ (0:ℕ) : ℚ) : ℝ))
      (K (((1:ℚ)/1000 * ((9:ℚ)/10) ^ (0:ℕ) : ℚ) : ℝ)) = 15
    rw [hm, hk]
    exact S_144_10
  · show 10 ≤ (List.replicate (K (((1:ℚ)/1000 * ((9:ℚ)/10) ^ (0:ℕ) : ℚ) : ℝ)) 0).length
    rw [List.length_replicate, hk]
  · show 10 ≤ (makePartitions (K (((1:ℚ)/1000 * ((9:ℚ)/10) ^ (0:ℕ) : ℚ) : ℝ))).length
    unfold makePartitions
    rw [List.length_replicate, hk]

theorem scal_step10 {t : ScalableBloom} {g : PartitionedBloom} {j : ℕ} (x : Bytes)
    (hb : t.bfs = [g]) (hp : t.p = 1/2) (hg : GenInv g j) (hj : j ≤ 10) :
    ∃ g', t.Add x = some { t with bfs := [g'], c := t.c + 1 } ∧ GenInv g' (j + 1) := by
  obtain ⟨hhf, hk, hs, hc, hbs, hbl⟩ := hg
  obtain ⟨aa, haa⟩ :=
    beUint32_isSome_of_length (fnvHash x) 4 (by rw [fnvHash_length])
  obtain ⟨bb, hbb⟩ :=
    beUint32_isSome_of_length (fnvHash x) 0
      (by rw [fnvHash_length]; omega)
  have hbits := PartitionedBloom.part_bits_intro g x hhf haa hbb
    (by rw [hk]; exact hbs) (by rw [hk, hs]; simp)
  have hadd := PartitionedBloom.add_intro g x hbits (by rw [hk]; exact hbl)
  have hlast : t.bfs.getLast? = some g := by rw [hb]; rfl
  have hcond : ¬(g.EstimatedFillRatio > (t.p : ℝ)) := by
    unfold PartitionedBloom.EstimatedFillRatio
    rw [hc, hs, hp]
    have hcast : (((1:ℚ)/2 : ℚ) : ℝ) = 1/2 := by push_cast; norm_num
    rw [hcast]
    have h15 : ((15:ℕ):ℝ) = 15 := by norm_num
    rw [h15]
    exact efr_not_exceeds hj
  have h2 := ScalableBloom.add_intro_nogrow hlast hcond hadd
  have heq : t.Add x = some { t with c := t.c + 1, bfs := [{ g with
      bs := ((List.range g.k).map fun i => (aa + bb * i) % 2 ^ 64 % g.s) ++ g.bs.drop g.k,
      b := setParts g.b ((List.range g.k).map fun i => (aa + bb * i) % 2 ^ 64 % g.s),
      c := g.c + 1 }] } := by
    rw [h2, hb]
    rfl
  refine ⟨_, heq, hhf, hk, hs, ?_, ?_, ?_⟩
  · show g.c + 1 = j + 1
    rw [hc]
  · show 10 ≤ (((List.range g.k).map fun i => (aa + bb * i) % 2 ^ 64 % g.s)
      ++ g.bs.drop g.k).length
    rw [List.length_append, List.length_map, List.length_range, hk]
    omega
  · show 10 ≤ (setParts g.b ((List.range g.k).map fun i =>
      (aa + bb * i) % 2 ^ 64 % g.s)).length
    rw [length_setParts]
    exact hbl

theorem scal_run10 : ∀ (l : List Bytes) (t : ScalableBloom) (g : PartitionedBloom)
    (j : ℕ), t.bfs = [g] → t.p = 1/2 → GenInv g j → j + l.length ≤ 11 →
    ∃ g', scalAddAll l t = some { t with bfs := [g'], c := t.c + l.length } ∧
      GenInv g' (j + l.length) := by
  intro l
  induction l with
  | nil =>
    intro t g j hb hp hg hj
    refine ⟨g, ?_, by simpa using hg⟩
    have ht : ({ t with bfs := [g], c := t.c + ([] : List Bytes).length } :
        ScalableBloom) = t := by
      rw [← hb]
      rfl
    show some t = _
    rw [ht]
  | cons y ys ih =>
    intro t g j hb hp hg hj
    obtain ⟨g1, hstep, hinv1⟩ := scal_step10 y hb hp hg
      (by simp only [List.length_cons] at hj; omega)
    obtain ⟨g2, hrun, hinv2⟩ := ih { t with bfs := [g1], c := t.c + 1 } g1 (j + 1)
      rfl hp hinv1 (by simp only [List.length_cons] at hj ⊢; omega)
    refine ⟨g2, ?_, ?_⟩
    · show List.foldlM (fun acc x => ScalableBloom.Add acc x) t (y :: ys) = _
      rw [List.foldlM_cons, hstep]
      show scalAddAll ys { t with bfs := [g1], c := t.c + 1 } = _
      rw [hrun]
      have hce : t.c + 1 + ys.length = t.c + (y :: ys).length := by
        simp only [List.length_cons]
        omega
      rw [hce]
    · have hje : j + 1 + ys.length = j + (y :: ys).length := by
        simp only [List.length_cons]
        omega
      rw [← hje]
      exact hinv2

theorem newGeneration_add_isSome (t : ScalableBloom) (x : Bytes)
    (hh : t.hf = some fnvHash) (hn : 0 < t.n)
    (he0 : (0:ℚ) < t.e * t.r ^ t.bfs.length) (he1 : t.e * t.r ^ t.bfs.length < 1) :
    ∃ g', t.newGeneration.Add x = some g' := by
  have he0r : (0:ℝ) < ((t.e * t.r ^ t.bfs.length : ℚ) : ℝ) := by exact_mod_cast he0
  have he1r : ((t.e * t.r ^ t.bfs.length : ℚ) : ℝ) < 1 := by exact_mod_cast he1
  have hp2 : (((1:ℚ)/2 : ℚ) : ℝ) = (1/2 : ℝ) := by
    push_cast
    norm_num
  have hk1 : 1 ≤ K ((t.e * t.r ^ t.bfs.length : ℚ) : ℝ) := K_ge_one he0r he1r
  have hm1 : 1 ≤ M t.n (((1:ℚ)/2 : ℚ) : ℝ) ((t.e * t.r ^ t.bfs.length : ℚ) : ℝ) := by
    rw [hp2]
    exact M_ge_one hn (by norm_num) (by norm_num) he0r he1r
  have hs1 : 1 ≤ S (M t.n (((1:ℚ)/2 : ℚ) : ℝ) ((t.e * t.r ^ t.bfs.length : ℚ) : ℝ))
      (K ((t.e * t.r ^ t.bfs.length : ℚ) : ℝ)) := S_ge_one hm1 hk1
  have hhf : t.newGeneration.hf = some fnvHash := by
    rw [ScalableBloom.newGeneration_hf, hh]
    rfl
  obtain ⟨aa, haa⟩ :=
    beUint32_isSome_of_length (fnvHash x) 4 (by rw [fnvHash_length])
  obtain ⟨bb, hbb⟩ :=
    beUint32_isSome_of_length (fnvHash x) 0
      (by rw [fnvHash_length]; omega)
  have hsval : 1 ≤ t.newGeneration.s := hs1
  have hbits := PartitionedBloom.part_bits_intro t.newGeneration x hhf haa hbb
    (by show K _ ≤ (List.replicate (K _) 0).length
        rw [List.length_replicate])
    (by intro hcon
        omega)
  refine ⟨_, PartitionedBloom.add_intro _ x hbits ?_⟩
  show K _ ≤ (makePartitions (K _)).length
  unfold makePartitions
  rw [List.length_replicate]

def keys10 : List Bytes :=
  [[0], [1], [2], [3], [4], [5], [6], [7], [8], [9]]

def keys11 : List Bytes := keys10 ++ [[10]]

def key12 : Bytes := [11]

/-- C9 counterexample: constructing a Scalable filter with `n = 10` (default
`p = 0.5`, `e = 0.001`, FNV hasher) and adding 11 distinct keys leaves the
chain at length 1 — it does not become 2 as claimed.  (The growth condition is
evaluated before inserting, so the 11th add still goes into generation 0.) -/
theorem c9_eleven_adds_counterexample :
    keys11.Nodup ∧ keys11.length = 11 ∧
    (scalAddAll keys11 (ScalableBloom.New 10)).map (fun u => u.bfs.length) =
      some 1 := by
  obtain ⟨g0, hbfs, hinv0⟩ := scalNew10_gen0
  obtain ⟨g11, hrun11, -⟩ :=
    scal_run10 keys11 (ScalableBloom.New 10) g0 0 hbfs rfl hinv0 (by decide)
  refine ⟨by decide, by decide, ?_⟩
  rw [hrun11]
  rfl

/-- The state of the scalable filter with `n = 10` after the 11 adds of the C9
scenario, with `g11` the single generation. -/
noncomputable def T11 (g11 : PartitionedBloom) : ScalableBloom :=
  { ScalableBloom.New 10 with
    c := (ScalableBloom.New 10).c + keys11.length, bfs := [g11] }

/-- C9 (amended): with `n = 10`, `p = 0.5` and defaults, the chain still has
length 1 after 11 distinct adds; generation 0's estimated fill ratio is then
`1 - e^(-11/15) ≈ 0.52 > 0.5` (after only 10 adds it is `1 - e^(-10/15) ≤ 0.5`),
so the growth condition first holds before the 12th add, and the chain length
becomes 2 exactly on the 12th add. -/
theorem c9_growth_on_twelfth_add :
    (scalAddAll keys11 (ScalableBloom.New 10)).map (fun u => u.bfs.length) =
      some 1 ∧
    ((scalAddAll keys11 (ScalableBloom.New 10)).bind (fun u => u.Add key12)).map
      (fun u => u.bfs.length) = some 2 ∧
    (scalAddAll keys11 (ScalableBloom.New 10)).map ScalableBloom.EstimatedFillRatio =
      some (some (1 - Real.exp (-(11:ℝ)/15))) ∧
    ((1:ℝ)/2 < 1 - Real.exp (-(11:ℝ)/15)) ∧
    (scalAddAll keys10 (ScalableBloom.New 10)).map ScalableBloom.EstimatedFillRatio =
      some (some (1 - Real.exp (-(10:ℝ)/15))) ∧
    ¬((1:ℝ)/2 < 1 - Real.exp (-(10:ℝ)/15)) := by
  obtain ⟨g0, hbfs, hinv0⟩ := scalNew10_gen0
  obtain ⟨g11, hrun11, hinv11⟩ :=
    scal_run10 keys11 (ScalableBloom.New 10) g0 0 hbfs rfl hinv0 (by decide)
  obtain ⟨g10, hrun10, hinv10⟩ :=
    scal_run10 keys10 (ScalableBloom.New 10) g0 0 hbfs rfl hinv0 (by decide)
  obtain ⟨hf11, hk11, hs11, hc11, -, -⟩ := hinv11
  obtain ⟨-, -, hs10, hc10, -, -⟩ := hinv10
  have hrun11' : scalAddAll keys11 (ScalableBloom.New 10) = some (T11 g11) := hrun11
  have hc11' : g11.c = 11 := by
    rw [hc11]
    decide
  have hc10' : g10.c = 10 := by
    rw [hc10]
    decide
  have hefr11 : g11.EstimatedFillRatio = 1 - Real.exp (-(11:ℝ)/15) := by
    unfold PartitionedBloom.EstimatedFillRatio
    rw [hc11', hs11]
    norm_num
  have hefr10 : g10.EstimatedFillRatio = 1 - Real.exp (-(10:ℝ)/15) := by
    unfold PartitionedBloom.EstimatedFillRatio
    rw [hc10', hs10]
    norm_num
  have hp2 : (((1:ℚ)/2 : ℚ) : ℝ) = (1/2 : ℝ) := by
    push_cast
    norm_num
  have hcond : g11.EstimatedFillRatio > (((T11 g11).p : ℚ) : ℝ) := by
    show g11.EstimatedFillRatio > (((1:ℚ)/2 : ℚ) : ℝ)
    rw [hefr11, hp2]
    exact efr_exceeds_eleven
  obtain ⟨g12, hadd12⟩ := newGeneration_add_isSome (T11 g11) key12 rfl
    (by show (0:ℕ) < 10; decide)
    (by show (0:ℚ) < 1/1000 * (9/10) ^ ([g11].length)
        simp only [List.length_singleton]
        norm_num)
    (by show (1:ℚ)/1000 * (9/10) ^ ([g11].length) < 1
        simp only [List.length_singleton]
        norm_num)
  have hlast : (T11 g11).bfs.getLast? = some g11 := rfl
  have h12 := ScalableBloom.add_intro_grow hlast hcond hadd12
  refine ⟨?_, ?_, ?_, efr_exceeds_eleven, ?_, ?_⟩
  · rw [hrun11]
    rfl
  · rw [hrun11', Option.some_bind, h12]
    rfl
  · rw [hrun11']
    show some (T11 g11).EstimatedFillRatio = _
    show some (([g11].getLast?).map PartitionedBloom.EstimatedFillRatio) = _
    rw [show ([g11].getLast?) = some g11 from rfl]
    rw [Option.map_some', hefr11]
  · rw [hrun10]
    show some (([g10].getLast?).map PartitionedBloom.EstimatedFillRatio) = _
    rw [show ([g10].getLast?) = some g10 from rfl]
    rw [Option.map_some', hefr10]
  · have h10 := efr_not_exceeds (c := 10) (le_refl 10)
    have h10c : ((10:ℕ):ℝ) = (10:ℝ) := by norm_num
    rw [h10c] at h10
    exact h10
